import Mathlib

/-!
Verification development for the initial chunk placement planner
(`initial_split_policy.cpp`).

The shard-key space is modelled by a linearly ordered type `K` (BSON keys
under `SimpleBSONObjComparator` form a linear order; for the hashed
split-point generator a concrete key type `Key` of BSON-like values is
used).  Fallible code paths (`uassert`, `invariant`) are modelled with
`Except`; the numeric error codes from the source are kept.
-/

/-! ### Basic data model -/

abbrev ShardId := String

/-- `SplitPolicyParams {collectionUUID, primaryShardId}` threaded through emission. -/
structure SplitPolicyParams where
  collectionUUID : Nat
  primaryShardId : ShardId
deriving DecidableEq, Repr

/-- `ChunkVersion`: `((epoch, timestamp), (major, minor))`.  The epoch (an OID in
the source) and the timestamp are opaque scalars here. -/
structure ChunkVersion where
  epoch : Nat
  timestamp : Nat
  major : Nat
  minor : Nat
deriving DecidableEq, Repr

/-- `ChunkVersion::incMinor`. -/
def ChunkVersion.incMinor (v : ChunkVersion) : ChunkVersion :=
  { v with minor := v.minor + 1 }

/-- Lexicographic order on the `(major, minor)` components of a chunk version. -/
def ChunkVersion.lexLt (a b : ChunkVersion) : Prop :=
  a.major < b.major ∨ (a.major = b.major ∧ a.minor < b.minor)

instance (a b : ChunkVersion) : Decidable (a.lexLt b) :=
  inferInstanceAs (Decidable (_ ∨ _))

/-- `ChunkType`: collection UUID, range `[min, max)`, version, shard, and the
single-entry history written by `appendChunk`. -/
structure Chunk (K : Type) where
  collectionUUID : Nat
  min : K
  max : K
  version : ChunkVersion
  shard : ShardId
  onCurrentShardSince : Nat
  history : List (Nat × ShardId)
deriving DecidableEq, Repr

/-- The chunk built by one `appendChunk` call: stamped with the current version,
`onCurrentShardSince` set to the version timestamp, history a single
`(timestamp, shardId)` entry. -/
def mkChunk {K : Type} (params : SplitPolicyParams) (v : ChunkVersion)
    (t : (K × K) × ShardId) : Chunk K :=
  { collectionUUID := params.collectionUUID
    min := t.1.1
    max := t.1.2
    version := v
    shard := t.2
    onCurrentShardSince := v.timestamp
    history := [(v.timestamp, t.2)] }

/-- `appendChunk(params, min, max, &version, shardId, &chunks)`: appends a chunk
carrying the current version and then increments the version minor counter.
The source mutates `version` and `chunks`; here the updated pair is returned. -/
def appendChunk {K : Type} (params : SplitPolicyParams) (mn mx : K)
    (version : ChunkVersion) (shardId : ShardId) (chunks : List (Chunk K)) :
    ChunkVersion × List (Chunk K) :=
  (version.incMinor, chunks ++ [mkChunk params version ((mn, mx), shardId)])

/-- A sequence of `appendChunk` calls, one per `((min, max), shard)` triple,
started from version `v` and an empty chunk list.  Every policy below emits its
chunks through this loop. -/
def emitChunks {K : Type} (params : SplitPolicyParams) :
    ChunkVersion → List ((K × K) × ShardId) → List (Chunk K)
  | _, [] => []
  | v, t :: ts => mkChunk params v t :: emitChunks params v.incMinor ts

/-- `emitChunks` is the accumulator-free form of folding `appendChunk` over the
triples, which is how every policy loop in the source emits chunks. -/
theorem emitChunks_eq_foldl {K : Type} (params : SplitPolicyParams)
    (v : ChunkVersion) (ts : List ((K × K) × ShardId)) :
    emitChunks params v ts =
      (ts.foldl (fun st t => appendChunk params t.1.1 t.1.2 st.1 t.2 st.2)
        (v, ([] : List (Chunk K)))).2 := by
  suffices h : ∀ (ts : List ((K × K) × ShardId)) (v : ChunkVersion)
      (cs : List (Chunk K)),
      (ts.foldl (fun st t => appendChunk params t.1.1 t.1.2 st.1 t.2 st.2)
        (v, cs)).2 = cs ++ emitChunks params v ts by
    rw [h ts v []]; simp
  intro ts
  induction ts with
  | nil => intro v cs; simp [emitChunks]
  | cons t ts ih =>
      intro v cs
      rw [List.foldl_cons]
      have h1 : appendChunk params t.1.1 t.1.2 (v, cs).1 t.2 (v, cs).2
          = (v.incMinor, cs ++ [mkChunk params v t]) := rfl
      rw [h1, ih]
      simp [emitChunks]

theorem emitChunks_rangeShards {K : Type} (params : SplitPolicyParams)
    (v : ChunkVersion) (ts : List ((K × K) × ShardId)) :
    (emitChunks params v ts).map (fun c => ((c.min, c.max), c.shard)) = ts := by
  induction ts generalizing v with
  | nil => rfl
  | cons t ts ih => simp [emitChunks, mkChunk, ih]

theorem emitChunks_length {K : Type} (params : SplitPolicyParams)
    (v : ChunkVersion) (ts : List ((K × K) × ShardId)) :
    (emitChunks params v ts).length = ts.length := by
  induction ts generalizing v with
  | nil => rfl
  | cons t ts ih => simp [emitChunks, ih]

/-- All chunks emitted in one run carry the epoch, timestamp and major
component of the starting version. -/
theorem emitChunks_version_fields {K : Type} (params : SplitPolicyParams)
    (v : ChunkVersion) (ts : List ((K × K) × ShardId)) :
    ∀ c ∈ emitChunks params v ts,
      c.version.epoch = v.epoch ∧ c.version.timestamp = v.timestamp ∧
      c.version.major = v.major := by
  induction ts generalizing v with
  | nil => intro c hc; simp [emitChunks] at hc
  | cons t ts ih =>
      intro c hc
      rcases (List.mem_cons).1 hc with h | h
      · subst h; exact ⟨rfl, rfl, rfl⟩
      · exact (ih v.incMinor c h)

/-- Versions are strictly increasing, in `(major, minor)` lexicographic order,
along the emission order. -/
theorem emitChunks_version_chain {K : Type} (params : SplitPolicyParams)
    (v : ChunkVersion) (ts : List ((K × K) × ShardId)) :
    List.Chain' (fun a b => a.version.lexLt b.version) (emitChunks params v ts) := by
  induction ts generalizing v with
  | nil => simp [emitChunks]
  | cons t ts ih =>
      rw [emitChunks, List.chain'_cons']
      refine ⟨?_, ih v.incMinor⟩
      intro y hy
      cases ts with
      | nil => simp [emitChunks] at hy
      | cons t2 ts2 =>
          simp only [emitChunks, List.head?_cons, Option.mem_def, Option.some.injEq] at hy
          subst hy
          exact Or.inr ⟨rfl, Nat.lt_succ_self _⟩

/-! ### Sorted duplicate-free sets (model of `BSONObjSet`, a `std::set`) -/

/-- Insertion into a sorted duplicate-free list, modelling `std::set::insert`
under the key comparator. -/
def insertSet {K : Type} [LinearOrder K] (x : K) : List K → List K
  | [] => [x]
  | y :: ys => if x < y then x :: y :: ys else if x = y then y :: ys else y :: insertSet x ys

/-- Collect a list into a sorted duplicate-free list, modelling the loop that
inserts every element into a `BSONObjSet` and then iterates the set. -/
def sortedDedup {K : Type} [LinearOrder K] (l : List K) : List K :=
  l.foldl (fun s x => insertSet x s) []

theorem mem_insertSet {K : Type} [LinearOrder K] (x a : K) (s : List K) :
    a ∈ insertSet x s ↔ a = x ∨ a ∈ s := by
  induction s with
  | nil => simp [insertSet]
  | cons y ys ih =>
      by_cases h1 : x < y
      · simp [insertSet, h1]
      · by_cases h2 : x = y
        · subst h2; simp [insertSet, h1]
        · simp [insertSet, h1, h2, ih]
          tauto

theorem sorted_insertSet {K : Type} [LinearOrder K] (x : K) (s : List K)
    (hs : s.Sorted (· < ·)) : (insertSet x s).Sorted (· < ·) := by
  induction s with
  | nil => simp [insertSet]
  | cons y ys ih =>
      rw [List.sorted_cons] at hs
      by_cases h1 : x < y
      · rw [insertSet, if_pos h1, List.sorted_cons]
        refine ⟨?_, (List.sorted_cons).2 hs⟩
        intro b hb
        rcases (List.mem_cons).1 hb with h | h
        · subst h; exact h1
        · exact lt_trans h1 (hs.1 b h)
      · by_cases h2 : x = y
        · subst h2
          rw [insertSet, if_neg h1, if_pos rfl, List.sorted_cons]
          exact hs
        · rw [insertSet, if_neg h1, if_neg h2, List.sorted_cons]
          refine ⟨?_, ih hs.2⟩
          intro b hb
          rcases (mem_insertSet x b ys).1 hb with h | h
          · subst h
            rcases lt_trichotomy b y with h3 | h3 | h3
            · exact absurd h3 h1
            · exact absurd h3 h2
            · exact h3
          · exact hs.1 b h

theorem sortedDedup_sorted {K : Type} [LinearOrder K] (l : List K) :
    (sortedDedup l).Sorted (· < ·) := by
  suffices h : ∀ (l s : List K), s.Sorted (· < ·) →
      (l.foldl (fun s x => insertSet x s) s).Sorted (· < ·) by
    exact h l [] (by simp)
  intro l
  induction l with
  | nil => intro s hs; exact hs
  | cons x xs ih => intro s hs; exact ih _ (sorted_insertSet x s hs)

theorem mem_sortedDedup {K : Type} [LinearOrder K] (l : List K) (a : K) :
    a ∈ sortedDedup l ↔ a ∈ l := by
  suffices h : ∀ (l s : List K), a ∈ l.foldl (fun s x => insertSet x s) s ↔ a ∈ s ∨ a ∈ l by
    have := h l []
    simpa [sortedDedup] using this
  intro l
  induction l with
  | nil => intro s; simp
  | cons x xs ih =>
      intro s
      rw [List.foldl_cons, ih, mem_insertSet]
      simp
      tauto

theorem sortedDedup_nodup {K : Type} [LinearOrder K] (l : List K) :
    (sortedDedup l).Nodup :=
  (sortedDedup_sorted l).nodup

/-- Two lists with the same elements produce the same sorted duplicate-free
set: insertion into a `std::set` ignores order and duplicates. -/
theorem sortedDedup_eq_of_mem_iff {K : Type} [LinearOrder K] {l l' : List K}
    (h : ∀ x, x ∈ l ↔ x ∈ l') : sortedDedup l = sortedDedup l' := by
  haveI : IsAntisymm K (· < ·) := ⟨fun a b h1 h2 => absurd h2 (lt_asymm h1)⟩
  refine List.eq_of_perm_of_sorted ?_ (sortedDedup_sorted l) (sortedDedup_sorted l')
  refine (List.perm_ext_iff_of_nodup (sortedDedup_nodup l) (sortedDedup_nodup l')).2 ?_
  intro a
  rw [mem_sortedDedup, mem_sortedDedup]
  exact h a

/-- The size of the sorted set is the number of distinct elements. -/
theorem sortedDedup_length {K : Type} [LinearOrder K] (l : List K) :
    (sortedDedup l).length = l.dedup.length := by
  refine List.Perm.length_eq ?_
  refine (List.perm_ext_iff_of_nodup (sortedDedup_nodup l) l.nodup_dedup).2 ?_
  intro a
  rw [mem_sortedDedup, List.mem_dedup]

theorem sortedDedup_idempotent {K : Type} [LinearOrder K] (l : List K) :
    sortedDedup (sortedDedup l) = sortedDedup l :=
  sortedDedup_eq_of_mem_iff (fun x => mem_sortedDedup l x)

theorem insertSet_length_of_not_mem {K : Type} [LinearOrder K] {x : K} {s : List K}
    (h : x ∉ s) : (insertSet x s).length = s.length + 1 := by
  induction s with
  | nil => rfl
  | cons y ys ih =>
      rw [List.mem_cons, not_or] at h
      by_cases h1 : x < y
      · simp [insertSet, h1]
      · rw [insertSet, if_neg h1, if_neg h.1]
        simp [ih h.2]

/-! ### Range chains and the tiling property -/

/-- `RangesChain a rs b`: the ranges `rs` are consecutive, starting at `a` and
ending at `b` (an empty list is allowed only when `a = b`). -/
def RangesChain {K : Type} (a : K) : List (K × K) → K → Prop
  | [], b => a = b
  | r :: rs, b => r.1 = a ∧ RangesChain r.2 rs b

theorem rangesChain_append {K : Type} {a m b : K} {xs ys : List (K × K)}
    (hx : RangesChain a xs m) (hy : RangesChain m ys b) :
    RangesChain a (xs ++ ys) b := by
  induction xs generalizing a with
  | nil => cases hx; simpa using hy
  | cons x xs ih =>
      obtain ⟨h1, h2⟩ := hx
      exact ⟨h1, ih h2⟩

/-- The §3/§8 tiling invariant on an emitted chunk list: non-empty, first `min`
is `globalMin`, last `max` is `globalMax`, and adjacent chunks share their
boundary. -/
def Tiles {K : Type} (gmin gmax : K) (chunks : List (Chunk K)) : Prop :=
  chunks ≠ [] ∧
  chunks.head?.map (fun c => c.min) = some gmin ∧
  chunks.getLast?.map (fun c => c.max) = some gmax ∧
  List.Chain' (fun a b => a.max = b.min) chunks

theorem rangesChain_head {K : Type} {a b : K} {r : K × K} {rs : List (K × K)}
    (h : RangesChain a (r :: rs) b) : r.1 = a := h.1

theorem getLast?_cons_of_ne_nil' {α : Type} {l : List α} (a : α) (h : l ≠ []) :
    (a :: l).getLast? = l.getLast? := by
  cases l with
  | nil => exact absurd rfl h
  | cons b l => exact List.getLast?_cons_cons

/-- Chunks emitted over a non-empty consecutive range list tile the interval. -/
theorem emitChunks_tiles {K : Type} (params : SplitPolicyParams)
    {a b : K} {ts : List ((K × K) × ShardId)}
    (h : RangesChain a (ts.map (fun t => t.1)) b) (hne : ts ≠ []) :
    ∀ v, Tiles a b (emitChunks params v ts) := by
  induction ts generalizing a with
  | nil => exact absurd rfl hne
  | cons t ts ih =>
      intro v
      obtain ⟨h1, h2⟩ := h
      cases ts with
      | nil =>
          cases h2
          exact ⟨by simp [emitChunks], by simp [emitChunks, mkChunk, h1],
            by simp [emitChunks, mkChunk], by simp [emitChunks]⟩
      | cons t2 ts2 =>
          obtain ⟨hne2, hh, hl, hc⟩ := ih h2 (by simp) v.incMinor
          refine ⟨by simp [emitChunks], by simp [emitChunks, mkChunk, h1], ?_, ?_⟩
          · rw [emitChunks, getLast?_cons_of_ne_nil' _ hne2]
            exact hl
          · rw [emitChunks, List.chain'_cons']
            refine ⟨?_, hc⟩
            intro y hy
            rw [emitChunks, List.head?_cons, Option.mem_def, Option.some.injEq] at hy
            subst hy
            simp only [mkChunk]
            exact (rangesChain_head h2).symm

/-- The consecutive bounds used by the chunk-generation loops: position `0`
starts at `a`, position `pts.length` ends at `b`, and position `i` is bounded
by split points `pts[i-1]` and `pts[i]` otherwise.  (The source phrases the
upper bound as `i < pts.size ? pts[i] : b`, which agrees with the `i = pts.length`
test for every `i ≤ pts.length`.) -/
def boundsAt {K : Type} (a b : K) (pts : List K) (i : Nat) : K × K :=
  ((if i = 0 then a else pts.getD (i - 1) a),
   (if i = pts.length then b else pts.getD i b))

theorem rangesChain_boundsAt {K : Type} (pts : List K) (a b : K) :
    RangesChain a ((List.range (pts.length + 1)).map (boundsAt a b pts)) b := by
  induction pts generalizing a with
  | nil => exact ⟨by simp [boundsAt], rfl⟩
  | cons p ps ih =>
      have hmap : (List.map (boundsAt a b (p :: ps)) (List.map Nat.succ (List.range (ps.length + 1))))
          = (List.range (ps.length + 1)).map (boundsAt p b ps) := by
        rw [List.map_map]
        refine List.map_congr_left ?_
        intro i hi
        rw [List.mem_range] at hi
        have hi' : i ≤ ps.length := Nat.lt_succ_iff.1 hi
        simp only [Function.comp_apply, boundsAt, Nat.succ_eq_add_one]
        rw [Prod.mk.injEq]
        constructor
        · cases i with
          | zero => simp
          | succ j =>
              have hj : j + 1 + 1 ≠ 0 := by omega
              rw [if_neg hj, if_neg (by omega : j + 1 ≠ 0)]
              simp only [Nat.add_sub_cancel]
              rw [List.getD_cons_succ]
              rw [List.getD_eq_getElem _ _ (by omega), List.getD_eq_getElem _ _ (by omega)]
        · by_cases hie : i = ps.length
          · subst hie
            rw [if_pos (by simp), if_pos rfl]
          · rw [if_neg (by simpa using hie), if_neg hie]
            rw [List.getD_cons_succ]
      rw [List.range_succ_eq_map, List.map_cons]
      refine ⟨by simp [boundsAt], ?_⟩
      simp only [List.length_cons]
      rw [hmap]
      exact ih p

/-! ### Concrete BSON-like key values

A shard-key value is an ordered tuple of BSON values compared field by field;
`MinKey` sorts below and `MaxKey` above every concrete value.  Concrete values
are represented by 64-bit integers (the only payload the planner itself ever
writes is the hashed-field integer).  Field names are omitted: all keys
compared by the planner conform to one key pattern, so the names agree. -/

inductive BVal where
  | minKey : BVal
  | intVal : Int → BVal
  | maxKey : BVal
deriving DecidableEq, Repr

/-- The BSON canonical comparison rank of a value: `MinKey` sorts first,
`MaxKey` last, integers in between ordered by value. -/
def BVal.rank : BVal → Lex (Nat × Int)
  | .minKey => toLex (0, 0)
  | .intVal v => toLex (1, v)
  | .maxKey => toLex (2, 0)

theorem BVal.rank_injective : Function.Injective BVal.rank := by
  intro a b h
  cases a <;> cases b <;> simp only [BVal.rank] at h <;>
    first
      | rfl
      | (have h2 := toLex.injective h
         simp only [Prod.mk.injEq] at h2
         exact congrArg BVal.intVal h2.2)
      | (have h2 := toLex.injective h
         simp only [Prod.mk.injEq] at h2
         exfalso
         omega)

instance : LinearOrder BVal := LinearOrder.lift' BVal.rank BVal.rank_injective

/-- A shard-key value: the tuple of field values, compared lexicographically
(`SimpleBSONObjComparator`).  The order is the Mathlib lexicographic list
order. -/
abbrev Key := List BVal

/-- One split point built by `calculateHashedSplitPoints`: the supplied key
values for the fields preceding the hashed field, then the hashed integer,
then `MinKey` for every field after the hashed field. -/
def buildSplitPoint (prefixFields : List BVal) (suffixLen : Nat) (value : Int) : Key :=
  prefixFields ++ BVal.intVal value :: List.replicate suffixLen BVal.minKey

theorem buildSplitPoint_injective (prefixFields : List BVal) (suffixLen : Nat) :
    Function.Injective (buildSplitPoint prefixFields suffixLen) := by
  intro v w h
  have h2 := List.append_cancel_left h
  obtain ⟨h3, -⟩ := List.cons.inj h2
  exact BVal.intVal.inj h3

def INT64_MAX : Int := 9223372036854775807

/-- `InitialSplitPolicy::calculateHashedSplitPoints`.  `numInitialChunks` is a
C++ `int`; the preconditions `numInitialChunks > 0` (asserted in the source)
and `numInitialChunks ≤ 2^31 - 1` (the `int` range) are hypotheses of the
theorems below.  The iteration pushing `current`, `-current` and advancing
`current` by `intervalSize` is rendered with `List.range`. -/
def calculateHashedSplitPoints (prefixFields : List BVal) (suffixLen : Nat)
    (numInitialChunks : Int) : List Key :=
  if numInitialChunks = 1 then []
  else
    let intervalSize : Int := INT64_MAX / numInitialChunks * 2
    let start : List Key × Int :=
      if numInitialChunks % 2 = 0 then
        ([buildSplitPoint prefixFields suffixLen 0], intervalSize)
      else
        ([], intervalSize / 2)
    let splitPoints : List Key := start.1 ++
      (List.range ((numInitialChunks - 1) / 2).toNat).flatMap fun i =>
        [buildSplitPoint prefixFields suffixLen (start.2 + (i : Int) * intervalSize),
         buildSplitPoint prefixFields suffixLen (-(start.2 + (i : Int) * intervalSize))]
    splitPoints.insertionSort (· ≤ ·)

/-- The hashed-field values described by the specification: `0` together with
the pairs `±intervalSize, ±2·intervalSize, …` for even `numInitialChunks`;
the pairs `±(intervalSize/2 + k·intervalSize)` with no zero point for odd
`numInitialChunks`. -/
def hashedSplitValues (numInitialChunks : Int) : List Int :=
  if numInitialChunks = 1 then []
  else
    let intervalSize : Int := INT64_MAX / numInitialChunks * 2
    let start : List Int × Int :=
      if numInitialChunks % 2 = 0 then ([0], intervalSize) else ([], intervalSize / 2)
    start.1 ++ (List.range ((numInitialChunks - 1) / 2).toNat).flatMap fun i =>
      [start.2 + (i : Int) * intervalSize, -(start.2 + (i : Int) * intervalSize)]

theorem calculateHashedSplitPoints_eq_map (prefixFields : List BVal) (suffixLen : Nat)
    (numInitialChunks : Int) :
    calculateHashedSplitPoints prefixFields suffixLen numInitialChunks =
      ((hashedSplitValues numInitialChunks).map
        (buildSplitPoint prefixFields suffixLen)).insertionSort (· ≤ ·) := by
  by_cases h1 : numInitialChunks = 1
  · simp [calculateHashedSplitPoints, hashedSplitValues, h1]
  · by_cases h2 : numInitialChunks % 2 = 0 <;>
      simp [calculateHashedSplitPoints, hashedSplitValues, h1, h2, List.map_flatMap]

/-! ### Error values and common input shapes -/

/-- An error raised through `uassert`/`invariant`: the numeric code, plus the
two diagnostics carried by the sampling cardinality error `4952606`. -/
structure PlanErr where
  code : Nat
  requestedNumChunks : Int
  achievableNumChunks : Nat
deriving DecidableEq, Repr

/-- An error that carries only its numeric code. -/
def errCode (c : Nat) : PlanErr := ⟨c, 0, 0⟩

/-- `ErrorCodes::InvalidOptions`. -/
def InvalidOptions : Nat := 72

/-- The part of `KeyPattern` the chunk planners consume: `globalMin` and
`globalMax` (all fields `MinKey`, resp. all fields `MaxKey`). -/
structure KeyPatternInfo (K : Type) where
  globalMin : K
  globalMax : K
deriving DecidableEq, Repr

/-- `TagsType`: a named zone range over the shard-key space. -/
structure TagRange (K : Type) where
  tag : String
  minKey : K
  maxKey : K
deriving DecidableEq, Repr

/-! ### `generateShardCollectionInitialChunks` and `SingleChunkOnPrimary` -/

/-- `InitialSplitPolicy::generateShardCollectionInitialChunks`: collect the
split points into a sorted duplicate-free set, then emit one chunk per
consecutive pair of bounds, assigning chunk `i` to
`allShardIds[(i / numContiguousChunksPerShard) % allShardIds.size()]`.
The source asserts `!allShardIds.empty()`, so the modulo index is in range and
the `getD` default is never read. -/
def generateShardCollectionInitialChunks {K : Type} [LinearOrder K]
    (params : SplitPolicyParams) (keyPattern : KeyPatternInfo K)
    (epoch validAfter : Nat) (splitPoints : List K) (allShardIds : List ShardId)
    (numContiguousChunksPerShard : Nat) : List (Chunk K) :=
  let finalSplitPoints := sortedDedup splitPoints
  emitChunks params ⟨epoch, validAfter, 1, 0⟩
    ((List.range (finalSplitPoints.length + 1)).map fun i =>
      (boundsAt keyPattern.globalMin keyPattern.globalMax finalSplitPoints i,
       allShardIds.getD ((i / numContiguousChunksPerShard) % allShardIds.length)
         params.primaryShardId))

/-- `SingleChunkOnPrimarySplitPolicy::createFirstChunks`: one chunk covering
the whole key space on the primary shard. -/
def singleChunkOnPrimaryCreateFirstChunks {K : Type} (params : SplitPolicyParams)
    (keyPattern : KeyPatternInfo K) (epoch validAfter : Nat) : List (Chunk K) :=
  emitChunks params ⟨epoch, validAfter, 1, 0⟩
    [((keyPattern.globalMin, keyPattern.globalMax), params.primaryShardId)]

/-! ### `AbstractTagsBasedSplitPolicy` -/

/-- `AbstractTagsBasedSplitPolicy::SplitInfo`. -/
structure SplitInfo (K : Type) where
  splitPoints : List K
  chunkDistribution : List (ShardId × Nat)

/-- The total chunk count of a distribution (`std::accumulate` over the
`(shard, count)` pairs). -/
def sumDist (d : List (ShardId × Nat)) : Nat := (d.map (fun p => p.2)).sum

/-- The round-robin hole shard `shardIds[indx++ % shardIds.size()]`.  The
inventory is non-empty in the source, so the default is never read. -/
def holeShard (shardIds : List ShardId) (holeIdx : Nat) : ShardId :=
  shardIds.getD (holeIdx % shardIds.length) ""

/-- The chunks emitted for one zone: walk `chunkDistribution`, emitting
`count` chunks per `(shard, count)` pair, bounded by the zone bounds at the
edges and consecutive split points in between (`splitPointIdx` advances once
per chunk; here the expanded shard sequence is paired with its index). -/
def zoneTriples {K : Type} (tag : TagRange K) (si : SplitInfo K) :
    List ((K × K) × ShardId) :=
  ((si.chunkDistribution.flatMap fun p => List.replicate p.2 p.1).enum).map fun p =>
    (boundsAt tag.minKey tag.maxKey si.splitPoints p.1, p.2)

/-- The per-tag loop of `AbstractTagsBasedSplitPolicy::createFirstChunks`,
computing the `((min, max), shard)` triples in emission order: a hole chunk
`[lastChunkMax, tag.min)` on the next round-robin shard when the zone starts
strictly above the running maximum, then the zone's own chunks, and after the
last zone a hole up to `globalMax` when needed.  Error codes: `50973` for a
zone with an empty shard list; `8423` stands for the source `invariant` that
the tag is present in the tag-to-shards map; `8424` for the source `invariant`
that `splitPoints.size() + 1` equals the distributed chunk count. -/
def tagsTriplesGo {K : Type} [LinearOrder K] (gmax : K) (shardIds : List ShardId)
    (tagToShards : String → Option (List ShardId))
    (buildSplitInfoForTag : TagRange K → SplitInfo K) :
    List (TagRange K) → Nat → K → Except PlanErr (List ((K × K) × ShardId))
  | [], holeIdx, lastChunkMax =>
    if lastChunkMax < gmax then
      .ok [((lastChunkMax, gmax), holeShard shardIds holeIdx)]
    else .ok []
  | tag :: rest, holeIdx, lastChunkMax =>
    match tagToShards tag.tag with
    | none => .error (errCode 8423)
    | some shardsForTag =>
      if shardsForTag.isEmpty then .error (errCode 50973)
      else
        if (buildSplitInfoForTag tag).splitPoints.length + 1
            = sumDist (buildSplitInfoForTag tag).chunkDistribution then
          match tagsTriplesGo gmax shardIds tagToShards buildSplitInfoForTag rest
              (holeIdx + (if lastChunkMax < tag.minKey then 1 else 0)) tag.maxKey with
          | .ok tail =>
            .ok ((if lastChunkMax < tag.minKey then
                [((lastChunkMax, tag.minKey), holeShard shardIds holeIdx)] else [])
              ++ (zoneTriples tag (buildSplitInfoForTag tag) ++ tail))
          | .error e => .error e
        else .error (errCode 8424)

/-- `AbstractTagsBasedSplitPolicy::createFirstChunks`.  `8422` stands for the
source `invariant(!_tags.empty())`. -/
def createFirstChunksTagsBased {K : Type} [LinearOrder K] (params : SplitPolicyParams)
    (keyPattern : KeyPatternInfo K) (epoch validAfter : Nat)
    (shardIds : List ShardId) (tagToShards : String → Option (List ShardId))
    (buildSplitInfoForTag : TagRange K → SplitInfo K) (tags : List (TagRange K)) :
    Except PlanErr (List (Chunk K)) :=
  if tags.isEmpty then .error (errCode 8422)
  else
    match tagsTriplesGo keyPattern.globalMax shardIds tagToShards buildSplitInfoForTag
        tags 0 keyPattern.globalMin with
    | .ok ts => .ok (emitChunks params ⟨epoch, validAfter, 1, 0⟩ ts)
    | .error e => .error e

/-- The §4.4 precondition: the zones are sorted by lower bound and
non-overlapping, starting no lower than the running maximum and ending no
higher than `globalMax`. -/
def ZonesOrderedFrom {K : Type} [LinearOrder K] (gmax : K) : K → List (TagRange K) → Prop
  | lastMax, [] => lastMax ≤ gmax
  | lastMax, tag :: rest => lastMax ≤ tag.minKey ∧ ZonesOrderedFrom gmax tag.maxKey rest

theorem shardsSeq_length (d : List (ShardId × Nat)) :
    (d.flatMap fun p => List.replicate p.2 p.1).length = sumDist d := by
  rw [List.length_flatMap, sumDist]
  congr 1
  refine List.map_congr_left ?_
  intro p hp
  simp

theorem zoneTriples_map_fst {K : Type} (tag : TagRange K) (si : SplitInfo K) :
    (zoneTriples tag si).map (fun t => t.1)
      = (List.range (si.chunkDistribution.flatMap fun p => List.replicate p.2 p.1).length).map
          (boundsAt tag.minKey tag.maxKey si.splitPoints) := by
  rw [zoneTriples, List.map_map]
  have h : ((fun (t : (K × K) × ShardId) => t.1) ∘
      (fun p : Nat × ShardId => (boundsAt tag.minKey tag.maxKey si.splitPoints p.1, p.2)))
      = (boundsAt tag.minKey tag.maxKey si.splitPoints) ∘ Prod.fst := rfl
  rw [h, ← List.map_map, List.enum_map_fst]

theorem zoneTriples_length {K : Type} (tag : TagRange K) (si : SplitInfo K) :
    (zoneTriples tag si).length = sumDist si.chunkDistribution := by
  rw [zoneTriples, List.length_map, List.enum_length, shardsSeq_length]

theorem zoneTriples_chain {K : Type} [LinearOrder K] (tag : TagRange K) (si : SplitInfo K)
    (h : si.splitPoints.length + 1 = sumDist si.chunkDistribution) :
    RangesChain tag.minKey ((zoneTriples tag si).map (fun t => t.1)) tag.maxKey := by
  rw [zoneTriples_map_fst]
  have hlen : (si.chunkDistribution.flatMap fun p => List.replicate p.2 p.1).length
      = si.splitPoints.length + 1 := by
    rw [shardsSeq_length, h]
  rw [hlen]
  exact rangesChain_boundsAt si.splitPoints tag.minKey tag.maxKey

theorem zoneTriples_ne_nil {K : Type} (tag : TagRange K) (si : SplitInfo K)
    (h : si.splitPoints.length + 1 = sumDist si.chunkDistribution) :
    zoneTriples tag si ≠ [] := by
  have h2 := zoneTriples_length tag si
  intro hnil
  rw [hnil] at h2
  simp at h2
  omega

/-- Inversion of a successful step of the per-tag loop. -/
theorem tagsTriplesGo_cons_ok {K : Type} [LinearOrder K] {gmax : K}
    {shardIds : List ShardId} {tagToShards : String → Option (List ShardId)}
    {bsi : TagRange K → SplitInfo K} {tag : TagRange K} {rest : List (TagRange K)}
    {holeIdx : Nat} {lastMax : K} {ts : List ((K × K) × ShardId)}
    (hok : tagsTriplesGo gmax shardIds tagToShards bsi (tag :: rest) holeIdx lastMax
      = .ok ts) :
    ∃ (shardsForTag : List ShardId) (tail : List ((K × K) × ShardId)),
      tagToShards tag.tag = some shardsForTag ∧ shardsForTag.isEmpty = false ∧
      (bsi tag).splitPoints.length + 1 = sumDist (bsi tag).chunkDistribution ∧
      tagsTriplesGo gmax shardIds tagToShards bsi rest
        (holeIdx + (if lastMax < tag.minKey then 1 else 0)) tag.maxKey = .ok tail ∧
      ts = (if lastMax < tag.minKey then
          [((lastMax, tag.minKey), holeShard shardIds holeIdx)] else [])
        ++ (zoneTriples tag (bsi tag) ++ tail) := by
  rw [tagsTriplesGo] at hok
  cases htg : tagToShards tag.tag with
  | none => simp only [htg] at hok; cases hok
  | some shardsForTag =>
      simp only [htg] at hok
      by_cases hemp : shardsForTag.isEmpty = true
      · rw [if_pos hemp] at hok; cases hok
      · rw [if_neg hemp] at hok
        by_cases hinv : (bsi tag).splitPoints.length + 1 = sumDist (bsi tag).chunkDistribution
        · rw [if_pos hinv] at hok
          cases htail : tagsTriplesGo gmax shardIds tagToShards bsi rest
              (holeIdx + (if lastMax < tag.minKey then 1 else 0)) tag.maxKey with
          | error e => rw [htail] at hok; cases hok
          | ok tail =>
              rw [htail] at hok
              cases hok
              exact ⟨shardsForTag, tail, rfl, Bool.not_eq_true _ ▸ eq_false_of_ne_true hemp,
                hinv, rfl, rfl⟩
        · rw [if_neg hinv] at hok; cases hok

/-- The triples computed by the tags-based driver chain from the running
maximum to `globalMax` whenever the zones are ordered. -/
theorem tagsTriplesGo_chain {K : Type} [LinearOrder K] (gmax : K)
    (shardIds : List ShardId) (tagToShards : String → Option (List ShardId))
    (bsi : TagRange K → SplitInfo K) :
    ∀ (tags : List (TagRange K)) (holeIdx : Nat) (lastMax : K)
      (ts : List ((K × K) × ShardId)),
      tagsTriplesGo gmax shardIds tagToShards bsi tags holeIdx lastMax = .ok ts →
      ZonesOrderedFrom gmax lastMax tags →
      RangesChain lastMax (ts.map (fun t => t.1)) gmax := by
  intro tags
  induction tags with
  | nil =>
      intro holeIdx lastMax ts hok hord
      have hord2 : lastMax ≤ gmax := hord
      rw [tagsTriplesGo] at hok
      by_cases hlt : lastMax < gmax
      · rw [if_pos hlt] at hok
        cases hok
        exact ⟨rfl, rfl⟩
      · rw [if_neg hlt] at hok
        cases hok
        exact le_antisymm hord2 (not_lt.1 hlt)
  | cons tag rest ih =>
      intro holeIdx lastMax ts hok hord
      obtain ⟨shardsForTag, tail, -, -, hinv, htail, hts⟩ := tagsTriplesGo_cons_ok hok
      subst hts
      rw [List.map_append, List.map_append]
      refine rangesChain_append ?_ (rangesChain_append
        (zoneTriples_chain tag (bsi tag) hinv) (ih _ _ _ htail hord.2))
      by_cases hlt : lastMax < tag.minKey
      · rw [if_pos hlt]
        exact ⟨rfl, rfl⟩
      · rw [if_neg hlt]
        exact le_antisymm hord.1 (not_lt.1 hlt)

theorem tagsTriplesGo_ne_nil {K : Type} [LinearOrder K] {gmax : K}
    {shardIds : List ShardId} {tagToShards : String → Option (List ShardId)}
    {bsi : TagRange K → SplitInfo K} {tag : TagRange K} {rest : List (TagRange K)}
    {holeIdx : Nat} {lastMax : K} {ts : List ((K × K) × ShardId)}
    (hok : tagsTriplesGo gmax shardIds tagToShards bsi (tag :: rest) holeIdx lastMax
      = .ok ts) : ts ≠ [] := by
  obtain ⟨shardsForTag, tail, -, -, hinv, -, hts⟩ := tagsTriplesGo_cons_ok hok
  subst hts
  have hz := zoneTriples_ne_nil tag (bsi tag) hinv
  intro hnil
  rcases List.append_eq_nil.1 hnil with ⟨-, h2⟩
  rcases List.append_eq_nil.1 h2 with ⟨h3, -⟩
  exact hz h3

/-- The gap ranges of the §4.4 algorithm, written from the specification
wording: one hole range before every zone whose lower bound lies strictly
above the running `lastMax`, and one final hole range when the last zone does
not reach `globalMax`. -/
def zoneGaps {K : Type} [LinearOrder K] (gmax : K) : K → List (TagRange K) → List (K × K)
  | lastMax, [] => if lastMax < gmax then [(lastMax, gmax)] else []
  | lastMax, tag :: rest =>
    (if lastMax < tag.minKey then [(lastMax, tag.minKey)] else [])
      ++ zoneGaps gmax tag.maxKey rest

/-- Closed-form layout of the tags-based driver, written from the claim: per
zone, exactly one hole chunk on the next round-robin shard exactly when the
zone's lower bound exceeds the running maximum (none when they are equal),
then the zone's own chunks; finally one hole chunk up to `globalMax` when the
running maximum is strictly below it.  The round-robin index advances only
when a hole is emitted. -/
def tagsLayout {K : Type} [LinearOrder K] (gmax : K) (shardIds : List ShardId)
    (buildSplitInfoForTag : TagRange K → SplitInfo K) :
    Nat → K → List (TagRange K) → List ((K × K) × ShardId)
  | holeIdx, lastMax, [] =>
    if lastMax < gmax then [((lastMax, gmax), holeShard shardIds holeIdx)] else []
  | holeIdx, lastMax, tag :: rest =>
    if lastMax < tag.minKey then
      ((lastMax, tag.minKey), holeShard shardIds holeIdx) ::
        (zoneTriples tag (buildSplitInfoForTag tag) ++
          tagsLayout gmax shardIds buildSplitInfoForTag (holeIdx + 1) tag.maxKey rest)
    else
      zoneTriples tag (buildSplitInfoForTag tag) ++
        tagsLayout gmax shardIds buildSplitInfoForTag holeIdx tag.maxKey rest

/-- Every gap range, paired with its position `k` in the gap list, appears in
the layout as a chunk on round-robin shard `holeIdx + k`. -/
theorem zoneGaps_mem_tagsLayout {K : Type} [LinearOrder K] (gmax : K)
    (shardIds : List ShardId) (bsi : TagRange K → SplitInfo K) :
    ∀ (tags : List (TagRange K)) (holeIdx : Nat) (lastMax : K) (k : Nat) (g : K × K),
      (zoneGaps gmax lastMax tags)[k]? = some g →
      ((g.1, g.2), holeShard shardIds (holeIdx + k)) ∈
        tagsLayout gmax shardIds bsi holeIdx lastMax tags := by
  intro tags
  induction tags with
  | nil =>
      intro holeIdx lastMax k g hg
      rw [zoneGaps] at hg
      by_cases hlt : lastMax < gmax
      · rw [if_pos hlt] at hg
        cases k with
        | zero =>
            simp only [List.getElem?_cons_zero, Option.some.injEq] at hg
            subst hg
            rw [tagsLayout, if_pos hlt]
            simp
        | succ k => simp at hg
      · rw [if_neg hlt] at hg
        simp at hg
  | cons tag rest ih =>
      intro holeIdx lastMax k g hg
      rw [zoneGaps] at hg
      rw [tagsLayout]
      by_cases hlt : lastMax < tag.minKey
      · rw [if_pos hlt] at hg
        rw [if_pos hlt]
        cases k with
        | zero =>
            simp only [List.cons_append, List.nil_append, List.getElem?_cons_zero,
              Option.some.injEq] at hg
            subst hg
            simp
        | succ k =>
            simp only [List.cons_append, List.nil_append, List.getElem?_cons_succ] at hg
            have hmem := ih (holeIdx + 1) tag.maxKey k g hg
            have harith : holeIdx + (k + 1) = holeIdx + 1 + k := by omega
            rw [harith]
            exact List.mem_cons_of_mem _ (List.mem_append_right _ hmem)
      · rw [if_neg hlt] at hg
        rw [if_neg hlt]
        simp only [List.nil_append] at hg
        exact List.mem_append_right _ (ih holeIdx tag.maxKey k g hg)

/-- On success the per-tag loop produces exactly the closed-form layout. -/
theorem tagsTriplesGo_eq_tagsLayout {K : Type} [LinearOrder K] (gmax : K)
    (shardIds : List ShardId) (tagToShards : String → Option (List ShardId))
    (bsi : TagRange K → SplitInfo K) :
    ∀ (tags : List (TagRange K)) (holeIdx : Nat) (lastMax : K)
      (ts : List ((K × K) × ShardId)),
      tagsTriplesGo gmax shardIds tagToShards bsi tags holeIdx lastMax = .ok ts →
      ts = tagsLayout gmax shardIds bsi holeIdx lastMax tags := by
  intro tags
  induction tags with
  | nil =>
      intro holeIdx lastMax ts hok
      rw [tagsTriplesGo] at hok
      rw [tagsLayout]
      by_cases hlt : lastMax < gmax
      · rw [if_pos hlt] at hok
        rw [if_pos hlt]
        cases hok
        rfl
      · rw [if_neg hlt] at hok
        rw [if_neg hlt]
        cases hok
        rfl
  | cons tag rest ih =>
      intro holeIdx lastMax ts hok
      obtain ⟨shardsForTag, tail, -, -, -, htail, hts⟩ := tagsTriplesGo_cons_ok hok
      subst hts
      rw [tagsLayout]
      by_cases hlt : lastMax < tag.minKey
      · simp only [if_pos hlt] at htail ⊢
        rw [ih _ _ _ htail]
        simp
      · simp only [if_neg hlt] at htail ⊢
        rw [ih _ _ _ htail]
        simp

/-! ### `PresplitHashedZonesSplitPolicy` -/

/-- The shape of a hashed shard-key pattern: total field count and the
position of the hashed field. -/
structure HashedKeyPattern where
  numFields : Nat
  hashedFieldIndex : Nat
deriving DecidableEq, Repr

/-- `ceilOfXOverY`: `(x / y) + (x % y != 0)`. -/
def ceilOfXOverY (x y : Nat) : Nat := x / y + if x % y ≠ 0 then 1 else 0

/-- `_numTagsPerShard[shard]++` on an association list. -/
def bumpCount : List (ShardId × Nat) → ShardId → List (ShardId × Nat)
  | [], s => [(s, 1)]
  | p :: m, s => if p.1 = s then (p.1, p.2 + 1) :: m else p :: bumpCount m s

/-- Read of `_numTagsPerShard[shard]`.  Every shard looked up by
`buildSplitInfoForTag` was inserted by the constructor loop, so the `0`
default is never read there. -/
def countForShard : List (ShardId × Nat) → ShardId → Nat
  | [], _ => 0
  | p :: m, s => if p.1 = s then p.2 else countForShard m s

/-- The `PresplitHashedZonesSplitPolicy` constructor loop computing
`_numTagsPerShard`: for every tag, bump the count of every shard carrying it. -/
def numTagsPerShardMap {K : Type} (tagToShards : String → List ShardId)
    (tags : List (TagRange K)) : List (ShardId × Nat) :=
  tags.foldl (fun m tag => (tagToShards tag.tag).foldl bumpCount m) []

/-- `_numInitialChunks`: the caller's value, or `2 · |_numTagsPerShard|` when
the caller passes `0`. -/
def presplitNumInitialChunks (numInitialChunks : Nat)
    (numTagsPerShard : List (ShardId × Nat)) : Nat :=
  if numInitialChunks ≠ 0 then numInitialChunks else numTagsPerShard.length * 2

/-- `PresplitHashedZonesSplitPolicy::buildSplitInfoForTag`: each shard of the
zone receives `ceil(ceil(numInitialChunks / |numTagsPerShard|) / numTagsPerShard[s])`
chunks; the split points are the hashed split points for the accumulated
chunk count, prefixed by the zone lower-bound fields before the hashed field. -/
def presplitBuildSplitInfoForTag (pat : HashedKeyPattern)
    (tagToShards : String → List ShardId) (numTagsPerShard : List (ShardId × Nat))
    (numInitialChunks : Nat) (tag : TagRange Key) : SplitInfo Key :=
  let numChunksPerShard := ceilOfXOverY numInitialChunks numTagsPerShard.length
  let chunkDistribution := (tagToShards tag.tag).map fun s =>
    (s, ceilOfXOverY numChunksPerShard (countForShard numTagsPerShard s))
  { splitPoints := calculateHashedSplitPoints (tag.minKey.take pat.hashedFieldIndex)
      (pat.numFields - pat.hashedFieldIndex - 1) (sumDist chunkDistribution : Int)
    chunkDistribution := chunkDistribution }

theorem numTagsPerShardMap_eq_flat {K : Type} (tagToShards : String → List ShardId)
    (tags : List (TagRange K)) :
    numTagsPerShardMap tagToShards tags
      = (tags.flatMap fun tag => tagToShards tag.tag).foldl bumpCount [] := by
  rw [numTagsPerShardMap]
  suffices h : ∀ (tags : List (TagRange K)) (m : List (ShardId × Nat)),
      tags.foldl (fun m tag => (tagToShards tag.tag).foldl bumpCount m) m
        = (tags.flatMap fun tag => tagToShards tag.tag).foldl bumpCount m by
    exact h tags []
  intro tags
  induction tags with
  | nil => intro m; simp
  | cons tag rest ih =>
      intro m
      rw [List.flatMap_cons, List.foldl_append, List.foldl_cons, ih]

theorem countForShard_bumpCount (m : List (ShardId × Nat)) (x s : ShardId) :
    countForShard (bumpCount m x) s
      = countForShard m s + (if x = s then 1 else 0) := by
  induction m with
  | nil =>
      by_cases h : x = s
      · subst h; simp [bumpCount, countForShard]
      · simp [bumpCount, countForShard, h]
  | cons p m ih =>
      by_cases h1 : p.1 = x
      · rw [bumpCount, if_pos h1]
        by_cases h2 : p.1 = s
        · rw [countForShard, if_pos h2, countForShard, if_pos h2, if_pos (h1 ▸ h2)]
        · rw [countForShard, if_neg h2, countForShard, if_neg h2,
            if_neg (fun hxs : x = s => h2 (h1.trans hxs))]
          omega
      · rw [bumpCount, if_neg h1]
        by_cases h2 : p.1 = s
        · rw [countForShard, if_pos h2, countForShard, if_pos h2,
            if_neg (fun hxs : x = s => h1 (h2.trans hxs.symm))]
          omega
        · rw [countForShard, if_neg h2, countForShard, if_neg h2, ih]

theorem countForShard_foldl (occs : List ShardId) :
    ∀ (m : List (ShardId × Nat)) (s : ShardId),
      countForShard (occs.foldl bumpCount m) s = countForShard m s + occs.count s := by
  induction occs with
  | nil => intro m s; simp
  | cons x occs ih =>
      intro m s
      rw [List.foldl_cons, ih, countForShard_bumpCount, List.count_cons]
      by_cases h : x = s
      · subst h
        simp
        omega
      · simp [h]

theorem countForShard_nil_add (occs : List ShardId) (s : ShardId) :
    countForShard (occs.foldl bumpCount []) s = occs.count s := by
  rw [countForShard_foldl]
  simp [countForShard]

theorem mem_keys_bumpCount (m : List (ShardId × Nat)) (x s : ShardId) :
    s ∈ (bumpCount m x).map Prod.fst ↔ s = x ∨ s ∈ m.map Prod.fst := by
  induction m with
  | nil => simp [bumpCount]
  | cons p m ih =>
      by_cases h1 : p.1 = x
      · rw [bumpCount, if_pos h1]
        simp [h1]
      · rw [bumpCount, if_neg h1]
        simp [ih]
        tauto

theorem nodup_keys_bumpCount (m : List (ShardId × Nat)) (x : ShardId)
    (h : (m.map Prod.fst).Nodup) : ((bumpCount m x).map Prod.fst).Nodup := by
  induction m with
  | nil => simp [bumpCount]
  | cons p m ih =>
      rw [List.map_cons, List.nodup_cons] at h
      by_cases h1 : p.1 = x
      · rw [bumpCount, if_pos h1, List.map_cons, List.nodup_cons]
        exact h
      · rw [bumpCount, if_neg h1, List.map_cons, List.nodup_cons]
        refine ⟨?_, ih h.2⟩
        rw [mem_keys_bumpCount]
        rintro (h2 | h2)
        · exact h1 h2
        · exact h.1 h2

theorem mem_keys_foldl_bumpCount (occs : List ShardId) :
    ∀ (m : List (ShardId × Nat)) (s : ShardId),
      s ∈ (occs.foldl bumpCount m).map Prod.fst ↔ s ∈ m.map Prod.fst ∨ s ∈ occs := by
  induction occs with
  | nil => intro m s; simp
  | cons x occs ih =>
      intro m s
      rw [List.foldl_cons, ih, mem_keys_bumpCount]
      simp
      tauto

theorem nodup_keys_foldl_bumpCount (occs : List ShardId) :
    ∀ (m : List (ShardId × Nat)), (m.map Prod.fst).Nodup →
      ((occs.foldl bumpCount m).map Prod.fst).Nodup := by
  induction occs with
  | nil => intro m h; exact h
  | cons x occs ih =>
      intro m h
      exact ih _ (nodup_keys_bumpCount m x h)

/-- The size of `_numTagsPerShard` is the number of distinct shards carrying
at least one tag. -/
theorem foldl_bumpCount_length (occs : List ShardId) :
    (occs.foldl bumpCount []).length = occs.toFinset.card := by
  have h1 : ∀ x, x ∈ (occs.foldl bumpCount []).map Prod.fst ↔ x ∈ occs := by
    intro x
    rw [mem_keys_foldl_bumpCount]
    simp
  have h2 : ((occs.foldl bumpCount []).map Prod.fst).Nodup :=
    nodup_keys_foldl_bumpCount occs [] (by simp)
  have h3 : ((occs.foldl bumpCount []).map Prod.fst).toFinset = occs.toFinset := by
    apply Finset.ext
    intro x
    rw [List.mem_toFinset, List.mem_toFinset, h1]
  calc (occs.foldl bumpCount []).length
      = ((occs.foldl bumpCount []).map Prod.fst).length := (List.length_map _ _).symm
    _ = ((occs.foldl bumpCount []).map Prod.fst).toFinset.card :=
        (List.toFinset_card_of_nodup h2).symm
    _ = occs.toFinset.card := by rw [h3]

theorem le_mul_ceilOfXOverY (c t : Nat) (ht : 0 < t) : c ≤ t * ceilOfXOverY c t := by
  have h1 := Nat.div_add_mod c t
  have h2 : c % t < t := Nat.mod_lt c ht
  rw [ceilOfXOverY]
  by_cases h : c % t ≠ 0
  · rw [if_pos h, Nat.mul_add, Nat.mul_one]
    omega
  · rw [if_neg h, Nat.add_zero]
    omega

theorem sum_flatMap_nat {α : Type} (f : α → List Nat) (l : List α) :
    (l.flatMap f).sum = (l.map (fun a => (f a).sum)).sum := by
  induction l with
  | nil => rfl
  | cons a l ih => simp [List.flatMap_cons, List.sum_append, ih]

/-! ### Association-list maps (`StringMap`, `ZoneShardMap`) -/

def lookupA {β : Type} : List (String × β) → String → Option β
  | [], _ => none
  | p :: m, k => if p.1 = k then some p.2 else lookupA m k

/-- `map[k] = v` (insert or overwrite). -/
def alistSet {β : Type} : List (String × β) → String → β → List (String × β)
  | [], k, v => [(k, v)]
  | p :: m, k, v => if p.1 = k then (k, v) :: m else p :: alistSet m k v

/-- `map[k].push_back(v)` (`operator[]` default-inserts an empty vector). -/
def alistPush : List (String × List ShardId) → String → ShardId → List (String × List ShardId)
  | [], k, v => [(k, [v])]
  | p :: m, k, v => if p.1 = k then (p.1, p.2 ++ [v]) :: m else p :: alistPush m k v

/-- `buildTagsToShardIdsMap`: empty tag list returns an empty map at once;
otherwise the shard documents (here supplied as `(shard name, its tags)`
pairs, the result of the `config.shards` query) must be non-empty (`50986`);
then every tag name is keyed to an empty list and every shard document pushes
its name onto the entry of each tag it carries. -/
def buildTagsToShardIdsMap {K : Type} (shardDocs : List (ShardId × List String))
    (tags : List (TagRange K)) : Except PlanErr (List (String × List ShardId)) :=
  if tags.isEmpty then .ok []
  else if shardDocs.isEmpty then .error (errCode 50986)
  else
    .ok (shardDocs.foldl
      (fun m doc => doc.2.foldl (fun m t => alistPush m t doc.1) m)
      (tags.foldl (fun m tag => alistSet m tag.tag []) []))

/-! ### `selectBestShard` -/

/-- Modelled from the spec: `ZoneInfo::getZoneForChunk` (defined in
`balancer_policy.cpp`, which is outside this source file) returns the name of
the zone whose range contains the chunk range, or the empty string for an
unzoned range. -/
def getZoneForChunk {K : Type} [LinearOrder K] (zoneInfo : List (TagRange K))
    (chunkRange : K × K) : String :=
  match zoneInfo.find?
      (fun z => decide (z.minKey ≤ chunkRange.1 ∧ chunkRange.2 ≤ z.maxKey)) with
  | some z => z.tag
  | none => ""

/-- The argmin loop of `selectBestShard`: keep the current best shard, replace
it only on a strictly smaller chunk count. -/
def selectBestShardLoop (chunkMap : ShardId → Nat) (shards : List ShardId) :
    Option ShardId :=
  shards.foldl (fun best shard =>
    match best with
    | none => some shard
    | some b => if chunkMap shard < chunkMap b then some shard else some b) none

/-- `selectBestShard(chunkMap, zoneInfo, zoneToShards, chunkRange)`.
`chunkMap` is a total function: the callers populate an entry for every shard
of the inventory before calling.  `8425` stands for the source
`invariant(bestShardIter != chunkMap.end())`, unreachable for a non-empty
shard list. -/
def selectBestShard {K : Type} [LinearOrder K] (chunkMap : ShardId → Nat)
    (zoneInfo : List (TagRange K)) (zoneToShards : List (String × List ShardId))
    (chunkRange : K × K) : Except PlanErr ShardId :=
  match lookupA zoneToShards (getZoneForChunk zoneInfo chunkRange) with
  | none => .error (errCode 4952605)
  | some shards =>
    if shards.isEmpty then .error (errCode 4952607)
    else
      match selectBestShardLoop chunkMap shards with
      | some s => .ok s
      | none => .error (errCode 8425)

/-! ### `SamplingBasedSplitPolicy` -/

/-- `extractSplitPointsFromZones`: the set of all zone bounds with `globalMin`
and `globalMax` erased. -/
def extractSplitPointsFromZones {K : Type} [LinearOrder K]
    (keyPattern : KeyPatternInfo K) (zones : Option (List (TagRange K))) : List K :=
  match zones with
  | none => []
  | some zs =>
    (sortedDedup (zs.flatMap fun z => [z.minKey, z.maxKey])).filter
      fun x => decide (x ≠ keyPattern.globalMin) && decide (x ≠ keyPattern.globalMax)

/-- `_appendSplitPointsFromSample`: pull samples while any remain and the
budget is positive; inserting an already-present key does not consume
budget. -/
def appendSplitPointsFromSample {K : Type} [LinearOrder K] :
    List K → List K → Int → List K
  | splitPoints, [], _ => splitPoints
  | splitPoints, k :: rest, nRemaining =>
    if 0 < nRemaining then
      if k ∈ splitPoints then appendSplitPointsFromSample splitPoints rest nRemaining
      else appendSplitPointsFromSample (insertSet k splitPoints) rest (nRemaining - 1)
    else splitPoints

/-- `SamplingBasedSplitPolicy::createFirstSplitPoints`.  The zone bounds are
taken already extended to the full key shape (`extendRangeBound` is the
identity on full bounds).  The constructor asserts `numInitialChunks > 0`,
which the theorems carry as a hypothesis. -/
def createFirstSplitPoints {K : Type} [LinearOrder K] (keyPattern : KeyPatternInfo K)
    (zones : Option (List (TagRange K))) (numInitialChunks : Int) (samples : List K) :
    Except PlanErr (List K) :=
  let seedPoints := extractSplitPointsFromZones keyPattern zones
  let splitPoints :=
    if (seedPoints.length : Int) < numInitialChunks - 1 then
      appendSplitPointsFromSample seedPoints samples
        (numInitialChunks - seedPoints.length - 1)
    else seedPoints
  if (splitPoints.length : Int) ≥ numInitialChunks - 1 then .ok splitPoints
  else .error ⟨4952606, numInitialChunks, splitPoints.length + 1⟩

/-- The distinct split points collectible from the seed plus the whole sample
stream; used to state the cardinality condition of error `4952606`. -/
def distinctUnion {K : Type} [LinearOrder K] (splitPoints : List K)
    (samples : List K) : List K :=
  samples.foldl (fun s k => if k ∈ s then s else insertSet k s) splitPoints

/-- The ranges walked by `SamplingBasedSplitPolicy::createFirstChunks`:
`[lastChunkMax, splitPoint)` for every split point, then the final range up
to `globalMax`. -/
def chainRanges {K : Type} (a : K) : List K → K → List (K × K)
  | [], b => [(a, b)]
  | p :: ps, b => (a, p) :: chainRanges p ps b

/-- The assignment loop of `SamplingBasedSplitPolicy::createFirstChunks`: for
every range select the best shard and bump its count.  (The selection reads
only the running counts, so it is computed before emission; emission itself
is `emitChunks` over the resulting pairs.) -/
def samplingAssignShards {K : Type} [LinearOrder K] (zoneInfo : List (TagRange K))
    (zoneToShards : List (String × List ShardId)) :
    (ShardId → Nat) → List (K × K) → Except PlanErr (List ShardId)
  | _, [] => .ok []
  | chunkMap, r :: rs =>
    match selectBestShard chunkMap zoneInfo zoneToShards r with
    | .error e => .error e
    | .ok s =>
      match samplingAssignShards zoneInfo zoneToShards
          (fun x => if x = s then chunkMap x + 1 else chunkMap x) rs with
      | .error e => .error e
      | .ok tail => .ok (s :: tail)

/-- `SamplingBasedSplitPolicy::createFirstChunks`.  The `config.shards`
documents back `buildTagsToShardIdsMap` when zones are present; the
`""`-keyed entry holding the whole shuffled inventory is appended afterwards
(`emplace` keeps an existing key, and lookup returns the first match).  The
zone-overlap validation by `ZoneInfo::addRangeToZone` is outside this source
file and is not modelled; `chunkDistribution` starts at `0` for every
shard. -/
def samplingCreateFirstChunks {K : Type} [LinearOrder K] (params : SplitPolicyParams)
    (keyPattern : KeyPatternInfo K) (epoch validAfter : Nat)
    (zones : Option (List (TagRange K))) (numInitialChunks : Int) (samples : List K)
    (shardDocs : List (ShardId × List String)) (allShardIds : List ShardId) :
    Except PlanErr (List (Chunk K)) :=
  match createFirstSplitPoints keyPattern zones numInitialChunks samples with
  | .error e => .error e
  | .ok splitPoints =>
    match (match zones with
           | some zs => buildTagsToShardIdsMap shardDocs zs
           | none => .ok []) with
    | .error e => .error e
    | .ok zoneToShardMap0 =>
      let zoneToShardMap := zoneToShardMap0 ++ [("", allShardIds)]
      let ranges := chainRanges keyPattern.globalMin splitPoints keyPattern.globalMax
      match samplingAssignShards (zones.getD []) zoneToShardMap (fun _ => 0) ranges with
      | .error e => .error e
      | .ok shards =>
        .ok (emitChunks params ⟨epoch, validAfter, 1, 0⟩ (ranges.zip shards))

/-! ### The strategy selector -/

inductive SplitPolicyChoice where
  | presplitHashedZonesPolicy
  | splitPointsBasedPolicy
  | singleChunkPerTagPolicy
  | singleChunkOnPrimaryPolicy
deriving DecidableEq, Repr

/-- `InitialSplitPolicy::calculateOptimizationStrategy` (the choice of policy;
each policy's own constructor validation is modelled separately).
`numShards` is only forwarded to the chosen policy in the source and does not
influence the choice. -/
def calculateOptimizationStrategy {K : Type} (shardKeyIsHashed hasHashedPrefixField : Bool)
    (numInitialChunks : Int) (presplitHashedZones : Bool)
    (tags : List (TagRange K)) (numShards : Nat) (collectionIsEmpty : Bool) :
    Except PlanErr SplitPolicyChoice :=
  if ¬(numInitialChunks = 0 ∨ (shardKeyIsHashed ∧ collectionIsEmpty)) then
    .error (errCode InvalidOptions)
  else if ¬(numInitialChunks = 0 ∨ hasHashedPrefixField ∨ presplitHashedZones) then
    .error (errCode InvalidOptions)
  else if presplitHashedZones then .ok .presplitHashedZonesPolicy
  else if tags.isEmpty ∧ hasHashedPrefixField ∧ collectionIsEmpty then
    .ok .splitPointsBasedPolicy
  else if ¬tags.isEmpty then
    (if collectionIsEmpty then .ok .singleChunkPerTagPolicy
     else .ok .singleChunkOnPrimaryPolicy)
  else .ok .singleChunkOnPrimaryPolicy

/-! ### Supporting lemmas for the sampling policy -/

theorem distinctUnion_cons {K : Type} [LinearOrder K] (sp : List K) (k : K)
    (rest : List K) :
    distinctUnion sp (k :: rest)
      = distinctUnion (if k ∈ sp then sp else insertSet k sp) rest := rfl

theorem distinctUnion_length_ge {K : Type} [LinearOrder K] :
    ∀ (samples : List K) (sp : List K), sp.length ≤ (distinctUnion sp samples).length := by
  intro samples
  induction samples with
  | nil => intro sp; exact le_refl _
  | cons k rest ih =>
      intro sp
      rw [distinctUnion_cons]
      by_cases hk : k ∈ sp
      · rw [if_pos hk]; exact ih sp
      · rw [if_neg hk]
        refine le_trans ?_ (ih (insertSet k sp))
        rw [insertSet_length_of_not_mem hk]
        omega

/-- The sampling append either exhausts the sample stream, producing every
distinct collectible point, or exhausts its budget, producing exactly
`nRemaining` new points. -/
theorem appendSplitPoints_cases {K : Type} [LinearOrder K] :
    ∀ (samples : List K) (sp : List K) (n : Int),
      appendSplitPointsFromSample sp samples n = distinctUnion sp samples ∨
      (appendSplitPointsFromSample sp samples n).length = sp.length + n.toNat := by
  intro samples
  induction samples with
  | nil => intro sp n; exact Or.inl rfl
  | cons k rest ih =>
      intro sp n
      rw [appendSplitPointsFromSample]
      by_cases hn : 0 < n
      · rw [if_pos hn]
        by_cases hk : k ∈ sp
        · rw [if_pos hk]
          rcases ih sp n with h | h
          · left; rw [h, distinctUnion_cons, if_pos hk]
          · right; exact h
        · rw [if_neg hk]
          rcases ih (insertSet k sp) (n - 1) with h | h
          · left; rw [h, distinctUnion_cons, if_neg hk]
          · right
            rw [h, insertSet_length_of_not_mem hk]
            omega
      · rw [if_neg hn]
        right
        omega

theorem appendSplitPoints_length_le {K : Type} [LinearOrder K] :
    ∀ (samples : List K) (sp : List K) (n : Int),
      (appendSplitPointsFromSample sp samples n).length
        ≤ (distinctUnion sp samples).length := by
  intro samples
  induction samples with
  | nil => intro sp n; exact le_refl _
  | cons k rest ih =>
      intro sp n
      rw [appendSplitPointsFromSample, distinctUnion_cons]
      by_cases hn : 0 < n
      · rw [if_pos hn]
        by_cases hk : k ∈ sp
        · rw [if_pos hk, if_pos hk]; exact ih sp n
        · rw [if_neg hk, if_neg hk]; exact ih _ _
      · rw [if_neg hn]
        by_cases hk : k ∈ sp
        · rw [if_pos hk]; exact distinctUnion_length_ge rest sp
        · rw [if_neg hk]
          refine le_trans ?_ (distinctUnion_length_ge rest (insertSet k sp))
          rw [insertSet_length_of_not_mem hk]
          omega

theorem rangesChain_chainRanges {K : Type} (b : K) (ps : List K) :
    ∀ a, RangesChain a (chainRanges a ps b) b := by
  induction ps with
  | nil => intro a; exact ⟨rfl, rfl⟩
  | cons p ps ih => intro a; exact ⟨rfl, ih p⟩

theorem chainRanges_ne_nil {K : Type} (a b : K) (ps : List K) :
    chainRanges a ps b ≠ [] := by
  cases ps <;> simp [chainRanges]

theorem samplingAssignShards_length {K : Type} [LinearOrder K]
    (zoneInfo : List (TagRange K)) (zoneToShards : List (String × List ShardId)) :
    ∀ (ranges : List (K × K)) (chunkMap : ShardId → Nat) (shards : List ShardId),
      samplingAssignShards zoneInfo zoneToShards chunkMap ranges = .ok shards →
      shards.length = ranges.length := by
  intro ranges
  induction ranges with
  | nil =>
      intro chunkMap shards h
      rw [samplingAssignShards] at h
      cases h
      rfl
  | cons r rs ih =>
      intro chunkMap shards h
      rw [samplingAssignShards] at h
      cases hsel : selectBestShard chunkMap zoneInfo zoneToShards r with
      | error e => rw [hsel] at h; cases h
      | ok s =>
          simp only [hsel] at h
          cases htail : samplingAssignShards zoneInfo zoneToShards
              (fun x => if x = s then chunkMap x + 1 else chunkMap x) rs with
          | error e => simp only [htail] at h; cases h
          | ok tail =>
              simp only [htail] at h
              cases h
              simp [ih _ _ htail]

/-! ### Claim theorems -/

/-- C1: for every policy the emitted chunk ranges exactly tile the key space:
the first chunk min is `globalMin`, the last chunk max is `globalMax`, and
each chunk max equals the next chunk min.  The four conjuncts cover
`SingleChunkOnPrimary`, `generateShardCollectionInitialChunks` (used by
`SplitPointsBased`), `AbstractTagsBasedSplitPolicy::createFirstChunks` (under
the sorted non-overlapping zone precondition), and
`SamplingBasedSplitPolicy::createFirstChunks`. -/
theorem c1_chunk_ranges_tile_key_space {K : Type} [LinearOrder K]
    (params : SplitPolicyParams) (keyPattern : KeyPatternInfo K)
    (epoch validAfter : Nat) :
    (Tiles keyPattern.globalMin keyPattern.globalMax
      (singleChunkOnPrimaryCreateFirstChunks params keyPattern epoch validAfter))
    ∧
    (∀ (splitPoints : List K) (allShardIds : List ShardId) (ncc : Nat),
      Tiles keyPattern.globalMin keyPattern.globalMax
        (generateShardCollectionInitialChunks params keyPattern epoch validAfter
          splitPoints allShardIds ncc))
    ∧
    (∀ (shardIds : List ShardId) (tagToShards : String → Option (List ShardId))
      (bsi : TagRange K → SplitInfo K) (tags : List (TagRange K)) (cs : List (Chunk K)),
      ZonesOrderedFrom keyPattern.globalMax keyPattern.globalMin tags →
      createFirstChunksTagsBased params keyPattern epoch validAfter shardIds
        tagToShards bsi tags = .ok cs →
      Tiles keyPattern.globalMin keyPattern.globalMax cs)
    ∧
    (∀ (zones : Option (List (TagRange K))) (numInitialChunks : Int) (samples : List K)
      (shardDocs : List (ShardId × List String)) (allShardIds : List ShardId)
      (cs : List (Chunk K)),
      samplingCreateFirstChunks params keyPattern epoch validAfter zones
        numInitialChunks samples shardDocs allShardIds = .ok cs →
      Tiles keyPattern.globalMin keyPattern.globalMax cs) := by
  refine ⟨?_, ?_, ?_, ?_⟩
  · refine emitChunks_tiles params ?_ (by simp) _
    exact ⟨rfl, rfl⟩
  · intro splitPoints allShardIds ncc
    refine emitChunks_tiles params ?_ (by simp) _
    rw [List.map_map]
    have h : ((fun (t : (K × K) × ShardId) => t.1) ∘ (fun i =>
        (boundsAt keyPattern.globalMin keyPattern.globalMax (sortedDedup splitPoints) i,
         allShardIds.getD ((i / ncc) % allShardIds.length) params.primaryShardId)))
        = boundsAt keyPattern.globalMin keyPattern.globalMax (sortedDedup splitPoints) := rfl
    rw [h]
    exact rangesChain_boundsAt _ _ _
  · intro shardIds tagToShards bsi tags cs hord hok
    rw [createFirstChunksTagsBased] at hok
    by_cases htags : tags.isEmpty
    · rw [if_pos htags] at hok; cases hok
    · rw [if_neg htags] at hok
      cases hts : tagsTriplesGo keyPattern.globalMax shardIds tagToShards bsi tags 0
          keyPattern.globalMin with
      | error e => rw [hts] at hok; cases hok
      | ok ts =>
          rw [hts] at hok
          cases hok
          cases tags with
          | nil => simp at htags
          | cons tag rest =>
              exact emitChunks_tiles params
                (tagsTriplesGo_chain _ _ _ _ _ _ _ _ hts hord)
                (tagsTriplesGo_ne_nil hts) _
  · intro zones numInitialChunks samples shardDocs allShardIds cs hok
    unfold samplingCreateFirstChunks at hok
    cases hsp : createFirstSplitPoints keyPattern zones numInitialChunks samples with
    | error e => rw [hsp] at hok; cases hok
    | ok splitPoints =>
        simp only [hsp] at hok
        cases hmap : (match zones with
            | some zs => buildTagsToShardIdsMap shardDocs zs
            | none => .ok ([] : List (String × List ShardId))) with
        | error e => simp only [hmap] at hok; cases hok
        | ok zoneToShardMap0 =>
            simp only [hmap] at hok
            cases hassign : samplingAssignShards (zones.getD [])
                (zoneToShardMap0 ++ [("", allShardIds)]) (fun _ => 0)
                (chainRanges keyPattern.globalMin splitPoints keyPattern.globalMax) with
            | error e => simp only [hassign] at hok; cases hok
            | ok shards =>
                simp only [hassign] at hok
                cases hok
                have hlen := samplingAssignShards_length _ _ _ _ _ hassign
                have hzip : ((chainRanges keyPattern.globalMin splitPoints
                    keyPattern.globalMax).zip shards).map
                      (fun t : (K × K) × ShardId => t.1)
                    = chainRanges keyPattern.globalMin splitPoints keyPattern.globalMax :=
                  List.map_fst_zip _ _ (le_of_eq hlen.symm)
                refine emitChunks_tiles params ?_ ?_ _
                · rw [hzip]
                  exact rangesChain_chainRanges _ _ _
                · intro hnil
                  have h2 := congrArg List.length hnil
                  rw [List.length_zip, hlen, Nat.min_self] at h2
                  exact chainRanges_ne_nil keyPattern.globalMin keyPattern.globalMax
                    splitPoints (List.length_eq_zero.1 h2)

/-- All-chunks version bookkeeping: shared epoch and timestamp, strictly
increasing `(major, minor)`. -/
def VersionsOk {K : Type} (epoch validAfter : Nat) (cs : List (Chunk K)) : Prop :=
  (∀ c ∈ cs, c.version.epoch = epoch ∧ c.version.timestamp = validAfter) ∧
  List.Chain' (fun a b => a.version.lexLt b.version) cs

theorem versionsOk_emitChunks {K : Type} (params : SplitPolicyParams)
    (epoch validAfter : Nat) (ts : List ((K × K) × ShardId)) :
    VersionsOk epoch validAfter (emitChunks params ⟨epoch, validAfter, 1, 0⟩ ts) := by
  constructor
  · intro c hc
    have h := emitChunks_version_fields params ⟨epoch, validAfter, 1, 0⟩ ts c hc
    exact ⟨h.1, h.2.1⟩
  · exact emitChunks_version_chain params _ ts

theorem createFirstChunksTagsBased_ok_inv {K : Type} [LinearOrder K]
    {params : SplitPolicyParams} {keyPattern : KeyPatternInfo K}
    {epoch validAfter : Nat} {shardIds : List ShardId}
    {tagToShards : String → Option (List ShardId)} {bsi : TagRange K → SplitInfo K}
    {tags : List (TagRange K)} {cs : List (Chunk K)}
    (hok : createFirstChunksTagsBased params keyPattern epoch validAfter shardIds
      tagToShards bsi tags = .ok cs) :
    ∃ ts, tagsTriplesGo keyPattern.globalMax shardIds tagToShards bsi tags 0
        keyPattern.globalMin = .ok ts ∧
      cs = emitChunks params ⟨epoch, validAfter, 1, 0⟩ ts ∧ tags.isEmpty = false := by
  rw [createFirstChunksTagsBased] at hok
  by_cases htags : tags.isEmpty
  · rw [if_pos htags] at hok; cases hok
  · rw [if_neg htags] at hok
    cases hts : tagsTriplesGo keyPattern.globalMax shardIds tagToShards bsi tags 0
        keyPattern.globalMin with
    | error e => rw [hts] at hok; cases hok
    | ok ts =>
        rw [hts] at hok
        cases hok
        exact ⟨ts, rfl, rfl, eq_false_of_ne_true htags⟩

theorem samplingCreateFirstChunks_ok_inv {K : Type} [LinearOrder K]
    {params : SplitPolicyParams} {keyPattern : KeyPatternInfo K}
    {epoch validAfter : Nat} {zones : Option (List (TagRange K))}
    {numInitialChunks : Int} {samples : List K}
    {shardDocs : List (ShardId × List String)} {allShardIds : List ShardId}
    {cs : List (Chunk K)}
    (hok : samplingCreateFirstChunks params keyPattern epoch validAfter zones
      numInitialChunks samples shardDocs allShardIds = .ok cs) :
    ∃ (splitPoints : List K) (shards : List ShardId),
      createFirstSplitPoints keyPattern zones numInitialChunks samples
        = .ok splitPoints ∧
      cs = emitChunks params ⟨epoch, validAfter, 1, 0⟩
        ((chainRanges keyPattern.globalMin splitPoints keyPattern.globalMax).zip
          shards) := by
  unfold samplingCreateFirstChunks at hok
  cases hsp : createFirstSplitPoints keyPattern zones numInitialChunks samples with
  | error e => rw [hsp] at hok; cases hok
  | ok splitPoints =>
      simp only [hsp] at hok
      cases hmap : (match zones with
          | some zs => buildTagsToShardIdsMap shardDocs zs
          | none => .ok ([] : List (String × List ShardId))) with
      | error e => simp only [hmap] at hok; cases hok
      | ok zoneToShardMap0 =>
          simp only [hmap] at hok
          cases hassign : samplingAssignShards (zones.getD [])
              (zoneToShardMap0 ++ [("", allShardIds)]) (fun _ => 0)
              (chainRanges keyPattern.globalMin splitPoints keyPattern.globalMax) with
          | error e => simp only [hassign] at hok; cases hok
          | ok shards =>
              simp only [hassign] at hok
              cases hok
              exact ⟨splitPoints, shards, rfl, rfl⟩

/-- C2: `appendChunk` stamps the current version onto the appended chunk,
records the single-entry history, and then increments the version minor
counter; consequently every policy output carries one shared epoch and
timestamp and strictly increasing `(major, minor)` in emission order. -/
theorem c2_version_monotonicity {K : Type} [LinearOrder K]
    (params : SplitPolicyParams) (keyPattern : KeyPatternInfo K)
    (epoch validAfter : Nat) :
    (∀ (mn mx : K) (v : ChunkVersion) (sh : ShardId) (cs : List (Chunk K)),
      appendChunk params mn mx v sh cs
        = (v.incMinor, cs ++ [mkChunk params v ((mn, mx), sh)]))
    ∧ VersionsOk epoch validAfter
        (singleChunkOnPrimaryCreateFirstChunks params keyPattern epoch validAfter)
    ∧ (∀ (splitPoints : List K) (allShardIds : List ShardId) (ncc : Nat),
        VersionsOk epoch validAfter
          (generateShardCollectionInitialChunks params keyPattern epoch validAfter
            splitPoints allShardIds ncc))
    ∧ (∀ (shardIds : List ShardId) (tagToShards : String → Option (List ShardId))
        (bsi : TagRange K → SplitInfo K) (tags : List (TagRange K))
        (cs : List (Chunk K)),
        createFirstChunksTagsBased params keyPattern epoch validAfter shardIds
          tagToShards bsi tags = .ok cs →
        VersionsOk epoch validAfter cs)
    ∧ (∀ (zones : Option (List (TagRange K))) (numInitialChunks : Int)
        (samples : List K) (shardDocs : List (ShardId × List String))
        (allShardIds : List ShardId) (cs : List (Chunk K)),
        samplingCreateFirstChunks params keyPattern epoch validAfter zones
          numInitialChunks samples shardDocs allShardIds = .ok cs →
        VersionsOk epoch validAfter cs) := by
  refine ⟨fun mn mx v sh cs => rfl, ?_, ?_, ?_, ?_⟩
  · exact versionsOk_emitChunks params epoch validAfter _
  · intro splitPoints allShardIds ncc
    exact versionsOk_emitChunks params epoch validAfter _
  · intro shardIds tagToShards bsi tags cs hok
    obtain ⟨ts, -, hcs, -⟩ := createFirstChunksTagsBased_ok_inv hok
    rw [hcs]
    exact versionsOk_emitChunks params epoch validAfter ts
  · intro zones numInitialChunks samples shardDocs allShardIds cs hok
    obtain ⟨splitPoints, shards, -, hcs⟩ := samplingCreateFirstChunks_ok_inv hok
    rw [hcs]
    exact versionsOk_emitChunks params epoch validAfter _

/-- C9: `generateShardCollectionInitialChunks` first collects the supplied
split points into a sorted duplicate-free set, so its output is invariant
under duplication and reordering of `splitPoints` (membership-equal lists
give equal outputs, in particular the sorted deduplicated list does), and the
output has exactly (number of distinct split points) + 1 chunks. -/
theorem c9_generate_dedup_invariance {K : Type} [LinearOrder K]
    (params : SplitPolicyParams) (keyPattern : KeyPatternInfo K)
    (epoch validAfter : Nat) (allShardIds : List ShardId) (ncc : Nat)
    (sps sps2 : List K) :
    ((∀ x, x ∈ sps ↔ x ∈ sps2) →
      generateShardCollectionInitialChunks params keyPattern epoch validAfter sps
          allShardIds ncc
        = generateShardCollectionInitialChunks params keyPattern epoch validAfter sps2
          allShardIds ncc)
    ∧ generateShardCollectionInitialChunks params keyPattern epoch validAfter sps
          allShardIds ncc
        = generateShardCollectionInitialChunks params keyPattern epoch validAfter
          (sortedDedup sps) allShardIds ncc
    ∧ (generateShardCollectionInitialChunks params keyPattern epoch validAfter sps
          allShardIds ncc).length = sps.dedup.length + 1 := by
  refine ⟨?_, ?_, ?_⟩
  · intro h
    simp only [generateShardCollectionInitialChunks]
    rw [sortedDedup_eq_of_mem_iff h]
  · simp only [generateShardCollectionInitialChunks]
    rw [sortedDedup_idempotent]
  · simp only [generateShardCollectionInitialChunks]
    rw [emitChunks_length, List.length_map, List.length_range, sortedDedup_length]

/-- C6: `calculateOptimizationStrategy` fails with `InvalidOptions` exactly
when `numInitialChunks` is non-zero and (the collection is non-empty or the
shard key has no hashed field), or when `numInitialChunks` is non-zero, the
pattern has no hashed prefix and `presplitHashedZones` is unset; when
validation passes the decision table applies: `PresplitHashedZones` if the
flag is set, else `SplitPointsBased` if the tags are empty, the pattern has a
hashed prefix and the collection is empty, else `SingleChunkPerTag` if the
tags are non-empty and the collection is empty, else `SingleChunkOnPrimary`. -/
theorem c6_strategy_selection {K : Type} (shardKeyIsHashed hasHashedPrefixField : Bool)
    (numInitialChunks : Int) (presplitHashedZones : Bool) (tags : List (TagRange K))
    (numShards : Nat) (collectionIsEmpty : Bool) :
    (calculateOptimizationStrategy shardKeyIsHashed hasHashedPrefixField
        numInitialChunks presplitHashedZones tags numShards collectionIsEmpty
        = .error (errCode InvalidOptions)
      ↔ ((numInitialChunks ≠ 0 ∧ (¬shardKeyIsHashed = true ∨ ¬collectionIsEmpty = true))
        ∨ (numInitialChunks ≠ 0 ∧ ¬hasHashedPrefixField = true
            ∧ ¬presplitHashedZones = true)))
    ∧ (¬((numInitialChunks ≠ 0 ∧ (¬shardKeyIsHashed = true ∨ ¬collectionIsEmpty = true))
        ∨ (numInitialChunks ≠ 0 ∧ ¬hasHashedPrefixField = true
            ∧ ¬presplitHashedZones = true)) →
      calculateOptimizationStrategy shardKeyIsHashed hasHashedPrefixField
        numInitialChunks presplitHashedZones tags numShards collectionIsEmpty
        = .ok (if presplitHashedZones then .presplitHashedZonesPolicy
          else if tags.isEmpty ∧ hasHashedPrefixField ∧ collectionIsEmpty then
            .splitPointsBasedPolicy
          else if ¬tags.isEmpty ∧ collectionIsEmpty then .singleChunkPerTagPolicy
          else .singleChunkOnPrimaryPolicy)) := by
  constructor
  · by_cases h1 : numInitialChunks = 0 ∨ (shardKeyIsHashed = true ∧ collectionIsEmpty = true)
    · by_cases h2 : numInitialChunks = 0 ∨ hasHashedPrefixField = true ∨
          presplitHashedZones = true
      · rw [calculateOptimizationStrategy, if_neg (not_not_intro h1),
          if_neg (not_not_intro h2)]
        constructor
        · intro heq
          exfalso
          by_cases h3 : presplitHashedZones = true
          · rw [if_pos h3] at heq; cases heq
          · rw [if_neg h3] at heq
            by_cases h4 : tags.isEmpty = true ∧ hasHashedPrefixField = true ∧
                collectionIsEmpty = true
            · rw [if_pos h4] at heq; cases heq
            · rw [if_neg h4] at heq
              by_cases h5 : ¬tags.isEmpty = true
              · rw [if_pos h5] at heq
                by_cases h6 : collectionIsEmpty = true
                · rw [if_pos h6] at heq; cases heq
                · rw [if_neg h6] at heq; cases heq
              · rw [if_neg h5] at heq; cases heq
        · intro hrhs
          exfalso
          tauto
      · rw [calculateOptimizationStrategy, if_neg (not_not_intro h1), if_pos h2]
        constructor
        · intro heq
          tauto
        · intro hrhs
          rfl
    · rw [calculateOptimizationStrategy, if_pos h1]
      constructor
      · intro heq
        tauto
      · intro hrhs
        rfl
  · intro hgood
    have h1 : numInitialChunks = 0 ∨ (shardKeyIsHashed = true ∧ collectionIsEmpty = true) := by
      tauto
    have h2 : numInitialChunks = 0 ∨ hasHashedPrefixField = true ∨
        presplitHashedZones = true := by
      tauto
    rw [calculateOptimizationStrategy, if_neg (not_not_intro h1), if_neg (not_not_intro h2)]
    by_cases h3 : presplitHashedZones = true
    · rw [if_pos h3, if_pos h3]
    · rw [if_neg h3, if_neg h3]
      by_cases h4 : tags.isEmpty = true ∧ hasHashedPrefixField = true ∧
          collectionIsEmpty = true
      · rw [if_pos h4, if_pos h4]
      · rw [if_neg h4, if_neg h4]
        by_cases h5 : ¬tags.isEmpty = true
        · rw [if_pos h5]
          by_cases h6 : collectionIsEmpty = true
          · rw [if_pos h6, if_pos (And.intro h5 h6)]
          · rw [if_neg h6, if_neg (fun hc => h6 hc.2)]
        · rw [if_neg h5, if_neg (fun hc => h5 hc.1)]

/-- C5: `createFirstSplitPoints` fails, with code `4952606`, exactly when
after seeding from the zone boundaries and exhausting the sample source fewer
than `numInitialChunks - 1` distinct split points are collectible; the error
carries `numInitialChunks` and the achievable chunk count (collected distinct
split points + 1).  `numInitialChunks > 0` is asserted by the policy
constructor (`4952602`). -/
theorem c5_sampling_cardinality_error {K : Type} [LinearOrder K]
    (keyPattern : KeyPatternInfo K) (zones : Option (List (TagRange K)))
    (numInitialChunks : Int) (samples : List K)
    (hpos : 0 < numInitialChunks) :
    (∀ e, createFirstSplitPoints keyPattern zones numInitialChunks samples
        = .error e →
      e = ⟨4952606, numInitialChunks,
        (distinctUnion (extractSplitPointsFromZones keyPattern zones) samples).length
          + 1⟩
      ∧ ((distinctUnion (extractSplitPointsFromZones keyPattern zones)
            samples).length : Int) < numInitialChunks - 1)
    ∧ (((distinctUnion (extractSplitPointsFromZones keyPattern zones)
          samples).length : Int) < numInitialChunks - 1 →
      createFirstSplitPoints keyPattern zones numInitialChunks samples
        = .error ⟨4952606, numInitialChunks,
          (distinctUnion (extractSplitPointsFromZones keyPattern zones)
            samples).length + 1⟩) := by
  have hle := appendSplitPoints_length_le samples
    (extractSplitPointsFromZones keyPattern zones)
    (numInitialChunks - (extractSplitPointsFromZones keyPattern zones).length - 1)
  have hge := distinctUnion_length_ge samples
    (extractSplitPointsFromZones keyPattern zones)
  have hcases := appendSplitPoints_cases samples
    (extractSplitPointsFromZones keyPattern zones)
    (numInitialChunks - (extractSplitPointsFromZones keyPattern zones).length - 1)
  simp only [createFirstSplitPoints]
  by_cases hA : ((extractSplitPointsFromZones keyPattern zones).length : Int)
      < numInitialChunks - 1
  · rw [if_pos hA]
    rcases hcases with hU | hB
    · rw [hU]
      by_cases hL : ((distinctUnion (extractSplitPointsFromZones keyPattern zones)
          samples).length : Int) ≥ numInitialChunks - 1
      · rw [if_pos hL]
        constructor
        · intro e he; cases he
        · intro hlt; omega
      · rw [if_neg hL]
        constructor
        · intro e he
          cases he
          exact ⟨rfl, by omega⟩
        · intro hlt; rfl
    · have hlen : ((appendSplitPointsFromSample
          (extractSplitPointsFromZones keyPattern zones) samples
          (numInitialChunks - (extractSplitPointsFromZones keyPattern zones).length
            - 1)).length : Int) = numInitialChunks - 1 := by
        rw [hB]
        push_cast
        omega
      rw [if_pos (ge_of_eq hlen)]
      constructor
      · intro e he; cases he
      · intro hlt
        exfalso
        rw [hB] at hle
        omega
  · rw [if_neg hA]
    rw [if_pos (by omega : ((extractSplitPointsFromZones keyPattern zones).length : Int)
        ≥ numInitialChunks - 1)]
    constructor
    · intro e he; cases he
    · intro hlt
      exfalso
      omega

/-- C7: in the tags-based driver, exactly one hole chunk `[lastMax, zone.min)`
precedes each zone whose lower bound strictly exceeds the running maximum
(zones starting at the running maximum get none), one final hole
`[lastMax, globalMax)` follows the last zone exactly when the running maximum
is strictly below `globalMax`, and the k-th hole overall is placed on
round-robin shard `shardIds[(holeIdx + k) % |shardIds|]`: a successful run
equals the closed-form layout, and every gap appears in the output on its
round-robin shard. -/
theorem c7_hole_chunks_round_robin {K : Type} [LinearOrder K] (gmax : K)
    (shardIds : List ShardId) (tagToShards : String → Option (List ShardId))
    (bsi : TagRange K → SplitInfo K) (tags : List (TagRange K)) (holeIdx : Nat)
    (lastMax : K) (ts : List ((K × K) × ShardId))
    (hok : tagsTriplesGo gmax shardIds tagToShards bsi tags holeIdx lastMax
      = .ok ts) :
    ts = tagsLayout gmax shardIds bsi holeIdx lastMax tags
    ∧ ∀ (k : Nat) (g : K × K), (zoneGaps gmax lastMax tags)[k]? = some g →
        ((g.1, g.2), holeShard shardIds (holeIdx + k)) ∈ ts := by
  have h1 := tagsTriplesGo_eq_tagsLayout gmax shardIds tagToShards bsi tags holeIdx
    lastMax ts hok
  refine ⟨h1, ?_⟩
  intro k g hg
  rw [h1]
  exact zoneGaps_mem_tagsLayout gmax shardIds bsi tags holeIdx lastMax k g hg

/-- C3: with at least one shard carrying a tag, the total chunk count assigned
by `PresplitHashedZonesSplitPolicy::buildSplitInfoForTag` across all zones is
at least `numInitialChunks`, where `numInitialChunks` defaults to
`2 · |numTagsPerShard|` when the caller passes `0`; each zone assigns each of
its shards `ceil(ceil(numInitialChunks / |numTagsPerShard|) / numTagsPerShard[s])`
chunks. -/
theorem c3_presplit_chunk_totals (pat : HashedKeyPattern)
    (tagToShards : String → List ShardId) (tags : List (TagRange Key))
    (numInitialChunks : Nat)
    (hne : numTagsPerShardMap tagToShards tags ≠ []) :
    ((tags.map fun tag => sumDist (presplitBuildSplitInfoForTag pat tagToShards
        (numTagsPerShardMap tagToShards tags)
        (presplitNumInitialChunks numInitialChunks
          (numTagsPerShardMap tagToShards tags)) tag).chunkDistribution).sum
      ≥ presplitNumInitialChunks numInitialChunks (numTagsPerShardMap tagToShards tags))
    ∧ (numInitialChunks = 0 →
        presplitNumInitialChunks numInitialChunks (numTagsPerShardMap tagToShards tags)
          = 2 * (numTagsPerShardMap tagToShards tags).length)
    ∧ (∀ tag ∈ tags,
        (presplitBuildSplitInfoForTag pat tagToShards
          (numTagsPerShardMap tagToShards tags)
          (presplitNumInitialChunks numInitialChunks
            (numTagsPerShardMap tagToShards tags)) tag).chunkDistribution
        = (tagToShards tag.tag).map fun s =>
            (s, ceilOfXOverY
              (ceilOfXOverY (presplitNumInitialChunks numInitialChunks
                  (numTagsPerShardMap tagToShards tags))
                (numTagsPerShardMap tagToShards tags).length)
              (countForShard (numTagsPerShardMap tagToShards tags) s))) := by
  refine ⟨?_, ?_, ?_⟩
  · have hmflat := numTagsPerShardMap_eq_flat tagToShards tags
    have hmlen : 0 < (numTagsPerShardMap tagToShards tags).length := by
      cases hm2 : numTagsPerShardMap tagToShards tags with
      | nil => exact absurd hm2 hne
      | cons a l => simp
    have hzone : ∀ tag : TagRange Key,
        sumDist (presplitBuildSplitInfoForTag pat tagToShards
          (numTagsPerShardMap tagToShards tags)
          (presplitNumInitialChunks numInitialChunks
            (numTagsPerShardMap tagToShards tags)) tag).chunkDistribution
        = ((tagToShards tag.tag).map fun s =>
            ceilOfXOverY
              (ceilOfXOverY (presplitNumInitialChunks numInitialChunks
                  (numTagsPerShardMap tagToShards tags))
                (numTagsPerShardMap tagToShards tags).length)
              (countForShard (numTagsPerShardMap tagToShards tags) s)).sum := by
      intro tag
      simp only [presplitBuildSplitInfoForTag, sumDist, List.map_map]
      rfl
    rw [List.map_congr_left (fun tag _ => hzone tag)]
    rw [← sum_flatMap_nat, ← List.map_flatMap]
    have hcount : ∀ s, countForShard (numTagsPerShardMap tagToShards tags) s
        = (tags.flatMap fun tag => tagToShards tag.tag).count s := by
      intro s
      rw [hmflat, countForShard_nil_add]
    rw [List.map_congr_left (fun s _ => by rw [hcount s])]
    rw [Finset.sum_list_map_count]
    have hcard : (tags.flatMap fun tag => tagToShards tag.tag).toFinset.card
        = (numTagsPerShardMap tagToShards tags).length := by
      rw [hmflat, foldl_bumpCount_length]
    have hbound : ∀ s ∈ (tags.flatMap fun tag => tagToShards tag.tag).toFinset,
        ceilOfXOverY (presplitNumInitialChunks numInitialChunks
            (numTagsPerShardMap tagToShards tags))
          (numTagsPerShardMap tagToShards tags).length
        ≤ (tags.flatMap fun tag => tagToShards tag.tag).count s •
            ceilOfXOverY
              (ceilOfXOverY (presplitNumInitialChunks numInitialChunks
                  (numTagsPerShardMap tagToShards tags))
                (numTagsPerShardMap tagToShards tags).length)
              ((tags.flatMap fun tag => tagToShards tag.tag).count s) := by
      intro s hs
      rw [List.mem_toFinset] at hs
      have hpos : 0 < (tags.flatMap fun tag => tagToShards tag.tag).count s :=
        List.count_pos_iff.2 hs
      rw [smul_eq_mul]
      exact le_mul_ceilOfXOverY _ _ hpos
    have hsum := Finset.card_nsmul_le_sum
      (tags.flatMap fun tag => tagToShards tag.tag).toFinset
      (fun s => (tags.flatMap fun tag => tagToShards tag.tag).count s •
        ceilOfXOverY
          (ceilOfXOverY (presplitNumInitialChunks numInitialChunks
              (numTagsPerShardMap tagToShards tags))
            (numTagsPerShardMap tagToShards tags).length)
          ((tags.flatMap fun tag => tagToShards tag.tag).count s))
      (ceilOfXOverY (presplitNumInitialChunks numInitialChunks
          (numTagsPerShardMap tagToShards tags))
        (numTagsPerShardMap tagToShards tags).length)
      hbound
    rw [hcard, smul_eq_mul] at hsum
    refine le_trans ?_ hsum
    exact le_mul_ceilOfXOverY _ _ hmlen
  · intro h0
    rw [h0, presplitNumInitialChunks]
    simp [Nat.mul_comm]
  · intro tag htag
    simp only [presplitBuildSplitInfoForTag]

/-! ### Supporting lemmas for `selectBestShard` and the map builders -/

/-- Index of the first occurrence of a shard in a list. -/
def firstIndexOf : List ShardId → ShardId → Nat
  | [], _ => 0
  | x :: l, a => if x = a then 0 else firstIndexOf l a + 1

theorem firstIndexOf_le_of_getD :
    ∀ (l : List ShardId) (a : ShardId) (i : Nat), i < l.length → l.getD i "" = a →
      firstIndexOf l a ≤ i := by
  intro l
  induction l with
  | nil => intro a i hi; simp at hi
  | cons x l ih =>
      intro a i hi hget
      cases i with
      | zero =>
          simp only [List.getD_cons_zero] at hget
          rw [firstIndexOf, if_pos hget]
      | succ j =>
          by_cases hx : x = a
          · rw [firstIndexOf, if_pos hx]
            omega
          · rw [firstIndexOf, if_neg hx]
            have hj : j < l.length := by simpa using hi
            rw [List.getD_cons_succ] at hget
            have := ih a j hj hget
            omega

/-- Characterization of the best-shard fold from a seeded accumulator. -/
theorem selectBestShardLoop_from_some (chunkMap : ShardId → Nat) :
    ∀ (l : List ShardId) (b : ShardId),
      ∃ r, l.foldl (fun best shard =>
          match best with
          | none => some shard
          | some b2 => if chunkMap shard < chunkMap b2 then some shard else some b2)
          (some b) = some r ∧
        (∀ s ∈ l, chunkMap r ≤ chunkMap s) ∧ chunkMap r ≤ chunkMap b ∧
        (r = b ∨ (chunkMap r < chunkMap b ∧ ∃ i, i < l.length ∧ r = l.getD i "" ∧
          ∀ j < i, chunkMap r < chunkMap (l.getD j ""))) := by
  intro l
  induction l with
  | nil =>
      intro b
      exact ⟨b, rfl, by simp, le_refl _, Or.inl rfl⟩
  | cons x l ih =>
      intro b
      rw [List.foldl_cons]
      by_cases hx : chunkMap x < chunkMap b
      · rw [show (match some b with
            | none => some x
            | some b2 => if chunkMap x < chunkMap b2 then some x else some b2)
            = some x from by simp [hx]]
        obtain ⟨r, hr, hmin, hrb, hpos⟩ := ih x
        refine ⟨r, hr, ?_, ?_, Or.inr ⟨?_, ?_⟩⟩
        · intro s hs
          rcases List.mem_cons.1 hs with h | h
          · subst h; exact hrb
          · exact hmin s h
        · exact le_of_lt (lt_of_le_of_lt hrb hx)
        · exact lt_of_le_of_lt hrb hx
        · rcases hpos with h | ⟨hlt, i, hi, hget, hbefore⟩
          · subst h
            exact ⟨0, by simp, by simp, by omega⟩
          · refine ⟨i + 1, by simpa using hi, by simpa using hget, ?_⟩
            intro j hj
            cases j with
            | zero => simpa using hlt
            | succ j2 =>
                rw [List.getD_cons_succ]
                exact hbefore j2 (by omega)
      · rw [show (match some b with
            | none => some x
            | some b2 => if chunkMap x < chunkMap b2 then some x else some b2)
            = some b from by simp [hx]]
        obtain ⟨r, hr, hmin, hrb, hpos⟩ := ih b
        refine ⟨r, hr, ?_, hrb, ?_⟩
        · intro s hs
          rcases List.mem_cons.1 hs with h | h
          · subst h; exact le_trans hrb (not_lt.1 hx)
          · exact hmin s h
        · rcases hpos with h | ⟨hlt, i, hi, hget, hbefore⟩
          · exact Or.inl h
          · refine Or.inr ⟨hlt, i + 1, by simpa using hi, by simpa using hget, ?_⟩
            intro j hj
            cases j with
            | zero =>
                have := lt_of_lt_of_le hlt (not_lt.1 hx)
                simpa using this
            | succ j2 =>
                rw [List.getD_cons_succ]
                exact hbefore j2 (by omega)

theorem lookupA_alistSet_isSome {β : Type} :
    ∀ (m : List (String × β)) (k k2 : String) (v : β),
      (lookupA m k).isSome → (lookupA (alistSet m k2 v) k).isSome := by
  intro m
  induction m with
  | nil => intro k k2 v h; simp [lookupA] at h
  | cons p m ih =>
      intro k k2 v h
      rw [lookupA] at h
      rw [alistSet]
      by_cases h1 : p.1 = k2
      · rw [if_pos h1, lookupA]
        show (if k2 = k then some v else lookupA m k).isSome = true
        by_cases h2 : p.1 = k
        · rw [if_pos (h1 ▸ h2)]
          simp
        · rw [if_neg (fun he : k2 = k => h2 (h1.symm ▸ he))]
          rw [if_neg h2] at h
          exact h
      · rw [if_neg h1, lookupA]
        by_cases h2 : p.1 = k
        · rw [if_pos h2]
          simp
        · rw [if_neg h2]
          rw [if_neg h2] at h
          exact ih k k2 v h

theorem lookupA_alistSet_self {β : Type} :
    ∀ (m : List (String × β)) (k : String) (v : β),
      (lookupA (alistSet m k v) k).isSome := by
  intro m
  induction m with
  | nil => intro k v; simp [alistSet, lookupA]
  | cons p m ih =>
      intro k v
      rw [alistSet]
      by_cases h1 : p.1 = k
      · rw [if_pos h1, lookupA, if_pos rfl]
        simp
      · rw [if_neg h1, lookupA, if_neg h1]
        exact ih k v

theorem lookupA_alistPush_isSome :
    ∀ (m : List (String × List ShardId)) (k k2 : String) (v : ShardId),
      (lookupA m k).isSome → (lookupA (alistPush m k2 v) k).isSome := by
  intro m
  induction m with
  | nil => intro k k2 v h; simp [lookupA] at h
  | cons p m ih =>
      intro k k2 v h
      rw [alistPush]
      by_cases h1 : p.1 = k2
      · rw [if_pos h1, lookupA]
        rw [lookupA] at h
        by_cases h2 : p.1 = k
        · rw [if_pos h2]; simp
        · rw [if_neg h2] at h ⊢
          exact h
      · rw [if_neg h1, lookupA]
        rw [lookupA] at h
        by_cases h2 : p.1 = k
        · rw [if_pos h2]; simp
        · rw [if_neg h2] at h ⊢
          exact ih k k2 v h

theorem lookupA_tagsInit_isSome {K : Type} :
    ∀ (tags : List (TagRange K)) (m : List (String × List ShardId)) (k : String),
      ((lookupA m k).isSome ∨ k ∈ tags.map (fun tag => tag.tag)) →
      (lookupA (tags.foldl (fun m tag => alistSet m tag.tag []) m) k).isSome := by
  intro tags
  induction tags with
  | nil =>
      intro m k h
      rcases h with h | h
      · exact h
      · simp at h
  | cons tag rest ih =>
      intro m k h
      rw [List.foldl_cons]
      refine ih (alistSet m tag.tag []) k ?_
      rcases h with h | h
      · exact Or.inl (lookupA_alistSet_isSome m k tag.tag [] h)
      · rw [List.map_cons, List.mem_cons] at h
        rcases h with h2 | h2
        · subst h2
          exact Or.inl (lookupA_alistSet_self m tag.tag [])
        · exact Or.inr h2

theorem lookupA_docsFold_isSome :
    ∀ (shardDocs : List (ShardId × List String)) (m : List (String × List ShardId))
      (k : String), (lookupA m k).isSome →
      (lookupA (shardDocs.foldl
        (fun m doc => doc.2.foldl (fun m t => alistPush m t doc.1) m) m) k).isSome := by
  intro shardDocs
  induction shardDocs with
  | nil => intro m k h; exact h
  | cons doc rest ih =>
      intro m k h
      rw [List.foldl_cons]
      refine ih _ k ?_
      clear ih
      induction doc.2 generalizing m with
      | nil => exact h
      | cons t ts ih2 =>
          rw [List.foldl_cons]
          exact ih2 (alistPush m t doc.1) (lookupA_alistPush_isSome m k t doc.1 h)

/-- C8: `selectBestShard` fails with `4952605` exactly when the zone of the
range (the empty string for unzoned ranges) is absent from `zoneToShards`,
fails with `4952607` exactly when the zone maps to an empty shard list, and
otherwise returns a shard of the zone with the smallest chunk count in
`chunkMap`, breaking ties in favor of the shard appearing earliest in the
zone's shard list: every shard strictly before the returned shard's first
occurrence has a strictly larger count. -/
theorem c8_selectBestShard {K : Type} [LinearOrder K] (chunkMap : ShardId → Nat)
    (zoneInfo : List (TagRange K)) (zoneToShards : List (String × List ShardId))
    (chunkRange : K × K) :
    (selectBestShard chunkMap zoneInfo zoneToShards chunkRange
        = .error (errCode 4952605)
      ↔ lookupA zoneToShards (getZoneForChunk zoneInfo chunkRange) = none)
    ∧ (selectBestShard chunkMap zoneInfo zoneToShards chunkRange
        = .error (errCode 4952607)
      ↔ lookupA zoneToShards (getZoneForChunk zoneInfo chunkRange) = some [])
    ∧ (∀ (shards : List ShardId) (s : ShardId),
        lookupA zoneToShards (getZoneForChunk zoneInfo chunkRange) = some shards →
        selectBestShard chunkMap zoneInfo zoneToShards chunkRange = .ok s →
        s ∈ shards ∧ (∀ s2 ∈ shards, chunkMap s ≤ chunkMap s2) ∧
        ∀ j < firstIndexOf shards s, chunkMap s < chunkMap (shards.getD j "")) := by
  rw [selectBestShard]
  cases hlk : lookupA zoneToShards (getZoneForChunk zoneInfo chunkRange) with
  | none =>
      refine ⟨by simp, ?_, ?_⟩
      · constructor
        · intro h
          exfalso
          have h2 : (4952605 : Nat) = 4952607 := congrArg PlanErr.code
            (Except.error.inj h)
          omega
        · intro h; cases h
      · intro shards s hlk2
        cases hlk2
  | some shards =>
      cases shards with
      | nil =>
          refine ⟨?_, by simp [lookupA], ?_⟩
          · simp only [List.isEmpty_nil, if_true]
            constructor
            · intro h
              exfalso
              have h2 : (4952607 : Nat) = 4952605 := congrArg PlanErr.code
                (Except.error.inj h)
              omega
            · intro h; cases h
          · intro shards2 s hlk2 hok
            cases hlk2
            simp only [List.isEmpty_nil, if_true] at hok
            cases hok
      | cons x rest =>
          have hloop : selectBestShardLoop chunkMap (x :: rest)
              = rest.foldl (fun best shard => match best with
                  | none => some shard
                  | some b2 => if chunkMap shard < chunkMap b2 then some shard
                    else some b2) (some x) := rfl
          obtain ⟨r, hr, hmin, hrb, hpos⟩ := selectBestShardLoop_from_some chunkMap rest x
          refine ⟨?_, ?_, ?_⟩
          · simp only [List.isEmpty_cons, if_false]
            rw [hloop, hr]
            constructor
            · intro h; cases h
            · intro h; cases h
          · simp only [List.isEmpty_cons, if_false]
            rw [hloop, hr]
            constructor
            · intro h; cases h
            · intro h; cases h
          · intro shards2 s hlk2 hok
            cases hlk2
            simp only [List.isEmpty_cons, if_false] at hok
            rw [hloop, hr] at hok
            cases hok
            refine ⟨?_, ?_, ?_⟩
            · rcases hpos with h | ⟨-, i, hi, hget, -⟩
              · subst h; exact List.mem_cons_self _ _
              · refine List.mem_cons_of_mem x ?_
                rw [hget, List.getD_eq_getElem rest "" hi]
                exact List.getElem_mem hi
            · intro s2 hs2
              rcases List.mem_cons.1 hs2 with h | h
              · subst h; exact hrb
              · exact hmin s2 h
            · rcases hpos with h | ⟨hlt, i, hi, hget, hbefore⟩
              · subst h
                intro j hj
                rw [firstIndexOf, if_pos rfl] at hj
                omega
              · have hrx : ¬x = r := by
                  intro he
                  rw [he] at hlt
                  exact lt_irrefl _ hlt
                intro j hj
                rw [firstIndexOf, if_neg hrx] at hj
                cases j with
                | zero => simpa using hlt
                | succ j2 =>
                    rw [List.getD_cons_succ]
                    have hle : firstIndexOf rest r ≤ i :=
                      firstIndexOf_le_of_getD rest r i hi hget.symm
                    exact hbefore j2 (by omega)

/-- C10: `buildTagsToShardIdsMap` with an empty tag list returns an empty map
at once, without consulting the shard inventory (so the empty-inventory
failure `50986` can only arise for a non-empty tag list, and for a non-empty
tag list it arises exactly when the inventory is empty); when the call
succeeds every tag name is a key of the returned map, even if no shard
carries it. -/
theorem c10_buildTagsToShardIdsMap {K : Type} (shardDocs : List (ShardId × List String))
    (tags : List (TagRange K)) :
    (tags = [] → buildTagsToShardIdsMap shardDocs tags = .ok [])
    ∧ (tags ≠ [] →
        (buildTagsToShardIdsMap shardDocs tags = .error (errCode 50986)
          ↔ shardDocs = []))
    ∧ (∀ m, buildTagsToShardIdsMap shardDocs tags = .ok m →
        ∀ tag ∈ tags, (lookupA m tag.tag).isSome) := by
  refine ⟨?_, ?_, ?_⟩
  · intro h
    subst h
    rfl
  · intro hne
    have hemp : tags.isEmpty = false := by
      cases tags with
      | nil => exact absurd rfl hne
      | cons t ts => rfl
    rw [buildTagsToShardIdsMap, hemp]
    simp only [Bool.false_eq_true, if_false]
    by_cases hdocs : shardDocs.isEmpty
    · rw [if_pos hdocs]
      have : shardDocs = [] := by
        cases shardDocs with
        | nil => rfl
        | cons d ds => simp at hdocs
      simp [this]
    · rw [if_neg hdocs]
      have : shardDocs ≠ [] := by
        intro h
        rw [h] at hdocs
        exact hdocs rfl
      constructor
      · intro h; cases h
      · intro h; exact absurd h this
  · intro m hok tag htag
    rw [buildTagsToShardIdsMap] at hok
    by_cases hemp : tags.isEmpty
    · rw [if_pos hemp] at hok
      cases tags with
      | nil => simp at htag
      | cons t ts => simp at hemp
    · rw [if_neg hemp] at hok
      by_cases hdocs : shardDocs.isEmpty
      · rw [if_pos hdocs] at hok
        cases hok
      · rw [if_neg hdocs] at hok
        cases hok
        refine lookupA_docsFold_isSome shardDocs _ tag.tag ?_
        refine lookupA_tagsInit_isSome tags [] tag.tag (Or.inr ?_)
        exact List.mem_map_of_mem (fun t => t.tag) htag

/-! ### Supporting lemmas for `calculateHashedSplitPoints` -/

theorem flatPairs_length {α : Type} (f g : Nat → α) (m : Nat) :
    ((List.range m).flatMap (fun i => [f i, g i])).length = 2 * m := by
  induction m with
  | zero => rfl
  | succ k ih =>
      rw [List.range_succ, List.flatMap_append, List.length_append, ih]
      simp
      omega

theorem flatPairs_ne_zero {c I : Int} (hc : 0 < c) (hI : 0 < I) (m : Nat) :
    ∀ v ∈ (List.range m).flatMap
      (fun i => [c + (i : Int) * I, -(c + (i : Int) * I)]), v ≠ 0 := by
  intro v hv
  rw [List.mem_flatMap] at hv
  obtain ⟨i, -, hvi⟩ := hv
  have hpos : 0 < c + (i : Int) * I := by
    have h2 : 0 ≤ (i : Int) * I := mul_nonneg (Int.natCast_nonneg i) (le_of_lt hI)
    omega
  rcases List.mem_cons.1 hvi with h | h
  · subst h; omega
  · rcases List.mem_cons.1 h with h2 | h2
    · subst h2; omega
    · simp at h2

theorem flatPairs_nodup {c I : Int} (hc : 0 < c) (hI : 0 < I) (m : Nat) :
    ((List.range m).flatMap
      (fun i => [c + (i : Int) * I, -(c + (i : Int) * I)])).Nodup := by
  rw [List.nodup_flatMap]
  constructor
  · intro i hi
    have hpos : 0 < c + (i : Int) * I := by
      have h2 : 0 ≤ (i : Int) * I := mul_nonneg (Int.natCast_nonneg i) (le_of_lt hI)
      omega
    simp
    omega
  · refine (List.pairwise_lt_range m).imp ?_
    intro i j hij
    have hmono : c + (i : Int) * I < c + (j : Int) * I := by
      have h2 : (i : Int) * I < (j : Int) * I := by
        refine (mul_lt_mul_right hI).2 ?_
        exact_mod_cast hij
      omega
    have hposi : 0 < c + (i : Int) * I := by
      have h2 : 0 ≤ (i : Int) * I := mul_nonneg (Int.natCast_nonneg i) (le_of_lt hI)
      omega
    have hposj : 0 < c + (j : Int) * I := by
      have h2 : 0 ≤ (j : Int) * I := mul_nonneg (Int.natCast_nonneg j) (le_of_lt hI)
      omega
    intro a hai haj
    rcases List.mem_cons.1 hai with h | h
    · rcases List.mem_cons.1 haj with h2 | h2
      · omega
      · rcases List.mem_cons.1 h2 with h3 | h3
        · omega
        · simp at h3
    · rcases List.mem_cons.1 h with h4 | h4
      · rcases List.mem_cons.1 haj with h2 | h2
        · omega
        · rcases List.mem_cons.1 h2 with h3 | h3
          · omega
          · simp at h3
      · simp at h4

theorem hashedSplitValues_length (n : Int) (h1 : 1 ≤ n) :
    (hashedSplitValues n).length = (n - 1).toNat := by
  by_cases hn1 : n = 1
  · simp [hashedSplitValues, hn1]
  · simp only [hashedSplitValues, if_neg hn1]
    by_cases he : n % 2 = 0
    · simp only [if_pos he, List.cons_append, List.nil_append, List.length_cons,
        flatPairs_length]
      omega
    · simp only [if_neg he, List.nil_append, flatPairs_length]
      omega

theorem hashedSplitValues_nodup (n : Int) (h1 : 1 ≤ n) (h2 : n ≤ 2147483647) :
    (hashedSplitValues n).Nodup := by
  by_cases hn1 : n = 1
  · simp [hashedSplitValues, hn1]
  · have hq : 1 ≤ INT64_MAX / n := by
      rw [Int.le_ediv_iff_mul_le (by omega : (0:Int) < n)]
      rw [INT64_MAX]
      omega
    have hI : 0 < INT64_MAX / n * 2 := by omega
    simp only [hashedSplitValues, if_neg hn1]
    by_cases he : n % 2 = 0
    · simp only [if_pos he, List.cons_append, List.nil_append]
      rw [List.nodup_cons]
      constructor
      · intro h0
        exact flatPairs_ne_zero hI hI _ 0 h0 rfl
      · exact flatPairs_nodup hI hI _
    · simp only [if_neg he, List.nil_append]
      have hc : 0 < INT64_MAX / n * 2 / 2 := by
        rw [Int.mul_ediv_cancel _ (by omega : (2:Int) ≠ 0)]
        omega
      exact flatPairs_nodup hc hI _

theorem hashedSplitValues_odd_ne_zero (n : Int) (h1 : 1 ≤ n) (h2 : n ≤ 2147483647)
    (hodd : ¬n % 2 = 0) : ∀ v ∈ hashedSplitValues n, v ≠ 0 := by
  intro v hv
  by_cases hn1 : n = 1
  · simp [hashedSplitValues, hn1] at hv
  · have hq : 1 ≤ INT64_MAX / n := by
      rw [Int.le_ediv_iff_mul_le (by omega : (0:Int) < n)]
      rw [INT64_MAX]
      omega
    have hI : 0 < INT64_MAX / n * 2 := by omega
    have hc : 0 < INT64_MAX / n * 2 / 2 := by
      rw [Int.mul_ediv_cancel _ (by omega : (2:Int) ≠ 0)]
      omega
    simp only [hashedSplitValues, if_neg hn1, if_neg hodd, List.nil_append] at hv
    exact flatPairs_ne_zero hc hI _ v hv

/-- C4: `calculateHashedSplitPoints(pattern, prefix, n)` for `1 ≤ n` (within
the C++ `int` range) returns exactly `n - 1` split points in strictly
ascending key order; `n = 1` yields the empty list; the multiset of returned
points is exactly the described hashed values (for even `n`: `0` with the
pairs `±interval, ±2·interval, …`; for odd `n`: the pairs
`±(interval/2 + k·interval)` with no zero point) built into key form; every
point consists of the prefix fields, then the hashed value, then `MinKey` for
every following field. -/
theorem c4_calculateHashedSplitPoints (prefixFields : List BVal) (suffixLen : Nat)
    (numInitialChunks : Int) (h1 : 1 ≤ numInitialChunks)
    (h2 : numInitialChunks ≤ 2147483647) :
    (calculateHashedSplitPoints prefixFields suffixLen numInitialChunks).length
        = (numInitialChunks - 1).toNat
    ∧ (numInitialChunks = 1 →
        calculateHashedSplitPoints prefixFields suffixLen numInitialChunks = [])
    ∧ (calculateHashedSplitPoints prefixFields suffixLen numInitialChunks).Sorted
        (· < ·)
    ∧ (calculateHashedSplitPoints prefixFields suffixLen numInitialChunks).Perm
        ((hashedSplitValues numInitialChunks).map
          (buildSplitPoint prefixFields suffixLen))
    ∧ (∀ p ∈ calculateHashedSplitPoints prefixFields suffixLen numInitialChunks,
        ∃ v : Int,
          p = prefixFields ++ BVal.intVal v :: List.replicate suffixLen BVal.minKey)
    ∧ (¬numInitialChunks % 2 = 0 →
        ∀ p ∈ calculateHashedSplitPoints prefixFields suffixLen numInitialChunks,
          p ≠ buildSplitPoint prefixFields suffixLen 0) := by
  have hperm : (calculateHashedSplitPoints prefixFields suffixLen numInitialChunks).Perm
      ((hashedSplitValues numInitialChunks).map
        (buildSplitPoint prefixFields suffixLen)) := by
    rw [calculateHashedSplitPoints_eq_map]
    exact List.perm_insertionSort (· ≤ ·) _
  have hsortedLe : (calculateHashedSplitPoints prefixFields suffixLen
      numInitialChunks).Sorted (· ≤ ·) := by
    rw [calculateHashedSplitPoints_eq_map]
    exact List.sorted_insertionSort (· ≤ ·) _
  have hnodup : (calculateHashedSplitPoints prefixFields suffixLen
      numInitialChunks).Nodup := by
    refine (List.Perm.nodup_iff hperm).2 ?_
    exact ((hashedSplitValues_nodup numInitialChunks h1 h2).map
      (buildSplitPoint_injective prefixFields suffixLen))
  refine ⟨?_, ?_, ?_, hperm, ?_, ?_⟩
  · rw [hperm.length_eq, List.length_map, hashedSplitValues_length numInitialChunks h1]
  · intro hn1
    rw [calculateHashedSplitPoints, if_pos hn1]
  · exact List.Sorted.lt_of_le hsortedLe hnodup
  · intro p hp
    have hp2 := hperm.mem_iff.1 hp
    rw [List.mem_map] at hp2
    obtain ⟨v, -, hv⟩ := hp2
    exact ⟨v, hv.symm⟩
  · intro hodd p hp hbad
    have hp2 := hperm.mem_iff.1 hp
    rw [List.mem_map] at hp2
    obtain ⟨v, hvmem, hv⟩ := hp2
    have hvne := hashedSplitValues_odd_ne_zero numInitialChunks h1 h2 hodd v hvmem
    apply hvne
    refine buildSplitPoint_injective prefixFields suffixLen ?_
    rw [hv, hbad]

/-! ### Witnesses -/

theorem c1_chunk_ranges_tile_key_space_witness :
    ZonesOrderedFrom (100 : Int) 0 [⟨"z", 10, 20⟩]
    ∧ createFirstChunksTagsBased ⟨7, "p"⟩ (⟨0, 100⟩ : KeyPatternInfo Int) 1 2
        ["a", "b"] (fun _ => some ["a"]) (fun _ => ⟨[], [("a", 1)]⟩) [⟨"z", 10, 20⟩]
      = .ok ((createFirstChunksTagsBased ⟨7, "p"⟩ (⟨0, 100⟩ : KeyPatternInfo Int) 1 2
          ["a", "b"] (fun _ => some ["a"]) (fun _ => ⟨[], [("a", 1)]⟩)
          [⟨"z", 10, 20⟩]).toOption.getD [])
    ∧ Tiles (0 : Int) 100 ((createFirstChunksTagsBased ⟨7, "p"⟩
        (⟨0, 100⟩ : KeyPatternInfo Int) 1 2 ["a", "b"] (fun _ => some ["a"])
        (fun _ => ⟨[], [("a", 1)]⟩) [⟨"z", 10, 20⟩]).toOption.getD [])
    ∧ samplingCreateFirstChunks ⟨7, "p"⟩ (⟨0, 100⟩ : KeyPatternInfo Int) 1 2 none 1 []
        [] ["a"]
      = .ok ((samplingCreateFirstChunks ⟨7, "p"⟩ (⟨0, 100⟩ : KeyPatternInfo Int) 1 2
          none 1 [] [] ["a"]).toOption.getD [])
    ∧ Tiles (0 : Int) 100 ((samplingCreateFirstChunks ⟨7, "p"⟩
        (⟨0, 100⟩ : KeyPatternInfo Int) 1 2 none 1 [] [] ["a"]).toOption.getD []) := by
  refine ⟨⟨by decide, show (20 : Int) ≤ 100 by decide⟩, rfl, ?_, rfl, ?_⟩
  · exact (c1_chunk_ranges_tile_key_space ⟨7, "p"⟩ (⟨0, 100⟩ : KeyPatternInfo Int)
      1 2).2.2.1 ["a", "b"] (fun _ => some ["a"]) (fun _ => ⟨[], [("a", 1)]⟩)
      [⟨"z", 10, 20⟩] _ ⟨by decide, show (20 : Int) ≤ 100 by decide⟩ rfl
  · exact (c1_chunk_ranges_tile_key_space ⟨7, "p"⟩ (⟨0, 100⟩ : KeyPatternInfo Int)
      1 2).2.2.2 none 1 [] [] ["a"] _ rfl

theorem c2_version_monotonicity_witness :
    createFirstChunksTagsBased ⟨7, "p"⟩ (⟨0, 100⟩ : KeyPatternInfo Int) 1 2
        ["a", "b"] (fun _ => some ["a"]) (fun _ => ⟨[], [("a", 1)]⟩) [⟨"z", 10, 20⟩]
      = .ok ((createFirstChunksTagsBased ⟨7, "p"⟩ (⟨0, 100⟩ : KeyPatternInfo Int) 1 2
          ["a", "b"] (fun _ => some ["a"]) (fun _ => ⟨[], [("a", 1)]⟩)
          [⟨"z", 10, 20⟩]).toOption.getD [])
    ∧ VersionsOk 1 2 ((createFirstChunksTagsBased ⟨7, "p"⟩
        (⟨0, 100⟩ : KeyPatternInfo Int) 1 2 ["a", "b"] (fun _ => some ["a"])
        (fun _ => ⟨[], [("a", 1)]⟩) [⟨"z", 10, 20⟩]).toOption.getD [])
    ∧ VersionsOk 1 2 ((samplingCreateFirstChunks ⟨7, "p"⟩
        (⟨0, 100⟩ : KeyPatternInfo Int) 1 2 none 1 [] [] ["a"]).toOption.getD []) := by
  refine ⟨rfl, ?_, ?_⟩
  · exact (c2_version_monotonicity ⟨7, "p"⟩ (⟨0, 100⟩ : KeyPatternInfo Int)
      1 2).2.2.2.1 ["a", "b"] (fun _ => some ["a"]) (fun _ => ⟨[], [("a", 1)]⟩)
      [⟨"z", 10, 20⟩] _ rfl
  · exact (c2_version_monotonicity ⟨7, "p"⟩ (⟨0, 100⟩ : KeyPatternInfo Int)
      1 2).2.2.2.2 none 1 [] [] ["a"] _ rfl

theorem c3_presplit_chunk_totals_witness :
    numTagsPerShardMap (fun _ => ["S1"])
      [(⟨"US", [BVal.intVal 1, BVal.minKey], [BVal.intVal 1, BVal.maxKey]⟩ :
        TagRange Key)] ≠ []
    ∧ (([(⟨"US", [BVal.intVal 1, BVal.minKey], [BVal.intVal 1, BVal.maxKey]⟩ :
          TagRange Key)].map fun tag =>
        sumDist (presplitBuildSplitInfoForTag ⟨2, 1⟩ (fun _ => ["S1"])
          (numTagsPerShardMap (fun _ => ["S1"])
            [(⟨"US", [BVal.intVal 1, BVal.minKey], [BVal.intVal 1, BVal.maxKey]⟩ :
              TagRange Key)])
          (presplitNumInitialChunks 0 (numTagsPerShardMap (fun _ => ["S1"])
            [(⟨"US", [BVal.intVal 1, BVal.minKey], [BVal.intVal 1, BVal.maxKey]⟩ :
              TagRange Key)]))
          tag).chunkDistribution).sum
      ≥ presplitNumInitialChunks 0 (numTagsPerShardMap (fun _ => ["S1"])
          [(⟨"US", [BVal.intVal 1, BVal.minKey], [BVal.intVal 1, BVal.maxKey]⟩ :
            TagRange Key)])) := by
  refine ⟨by decide, ?_⟩
  exact (c3_presplit_chunk_totals ⟨2, 1⟩ (fun _ => ["S1"])
    [(⟨"US", [BVal.intVal 1, BVal.minKey], [BVal.intVal 1, BVal.maxKey]⟩ :
      TagRange Key)] 0 (by decide)).1

theorem c4_calculateHashedSplitPoints_witness :
    (1 : Int) ≤ 4 ∧ (4 : Int) ≤ 2147483647
    ∧ (calculateHashedSplitPoints [] 1 4).length = ((4 : Int) - 1).toNat
    ∧ (calculateHashedSplitPoints [] 1 4).Sorted (· < ·)
    ∧ (calculateHashedSplitPoints [] 1 4).Perm
        ((hashedSplitValues 4).map (buildSplitPoint [] 1)) := by
  refine ⟨by decide, by decide, ?_, ?_, ?_⟩
  · exact (c4_calculateHashedSplitPoints [] 1 4 (by decide) (by decide)).1
  · exact (c4_calculateHashedSplitPoints [] 1 4 (by decide) (by decide)).2.2.1
  · exact (c4_calculateHashedSplitPoints [] 1 4 (by decide) (by decide)).2.2.2.1

theorem c5_sampling_cardinality_error_witness :
    (0 : Int) < 10
    ∧ ((distinctUnion (extractSplitPointsFromZones (⟨0, 100⟩ : KeyPatternInfo Int) none)
        [1, 2, 3, 4]).length : Int) < 10 - 1
    ∧ createFirstSplitPoints (⟨0, 100⟩ : KeyPatternInfo Int) none 10 [1, 2, 3, 4]
      = .error ⟨4952606, 10,
          (distinctUnion (extractSplitPointsFromZones (⟨0, 100⟩ : KeyPatternInfo Int)
            none) [1, 2, 3, 4]).length + 1⟩ := by
  refine ⟨by decide, by decide, ?_⟩
  exact (c5_sampling_cardinality_error (⟨0, 100⟩ : KeyPatternInfo Int) none 10
    [1, 2, 3, 4] (by decide)).2 (by decide)

theorem c6_strategy_selection_witness :
    ¬((((5 : Int) ≠ 0 ∧ (¬true = true ∨ ¬true = true))
      ∨ ((5 : Int) ≠ 0 ∧ ¬true = true ∧ ¬false = true)))
    ∧ calculateOptimizationStrategy true true 5 false ([] : List (TagRange Int)) 3 true
      = .ok (if (false : Bool) then .presplitHashedZonesPolicy
          else if ([] : List (TagRange Int)).isEmpty ∧ (true : Bool) ∧ (true : Bool) then
            .splitPointsBasedPolicy
          else if ¬([] : List (TagRange Int)).isEmpty ∧ (true : Bool) then
            .singleChunkPerTagPolicy
          else .singleChunkOnPrimaryPolicy) := by
  refine ⟨by decide, ?_⟩
  exact (c6_strategy_selection true true 5 false ([] : List (TagRange Int)) 3 true).2
    (by decide)

theorem c7_hole_chunks_round_robin_witness :
    tagsTriplesGo (100 : Int) ["a", "b"] (fun _ => some ["a"])
        (fun _ => ⟨[], [("a", 1)]⟩) [⟨"z", 10, 20⟩] 0 0
      = .ok ((tagsTriplesGo (100 : Int) ["a", "b"] (fun _ => some ["a"])
          (fun _ => ⟨[], [("a", 1)]⟩) [⟨"z", 10, 20⟩] 0 0).toOption.getD [])
    ∧ (tagsTriplesGo (100 : Int) ["a", "b"] (fun _ => some ["a"])
        (fun _ => ⟨[], [("a", 1)]⟩) [⟨"z", 10, 20⟩] 0 0).toOption.getD []
      = tagsLayout (100 : Int) ["a", "b"] (fun _ => ⟨[], [("a", 1)]⟩) 0 0
          [⟨"z", 10, 20⟩]
    ∧ (∀ (k : Nat) (g : Int × Int),
        (zoneGaps (100 : Int) 0 [⟨"z", 10, 20⟩])[k]? = some g →
        ((g.1, g.2), holeShard ["a", "b"] (0 + k)) ∈
          (tagsTriplesGo (100 : Int) ["a", "b"] (fun _ => some ["a"])
            (fun _ => ⟨[], [("a", 1)]⟩) [⟨"z", 10, 20⟩] 0 0).toOption.getD []) := by
  refine ⟨rfl, ?_, ?_⟩
  · exact (c7_hole_chunks_round_robin (100 : Int) ["a", "b"] (fun _ => some ["a"])
      (fun _ => ⟨[], [("a", 1)]⟩) [⟨"z", 10, 20⟩] 0 0
      ((tagsTriplesGo (100 : Int) ["a", "b"] (fun _ => some ["a"])
        (fun _ => ⟨[], [("a", 1)]⟩) [⟨"z", 10, 20⟩] 0 0).toOption.getD []) (by rfl)).1
  · exact (c7_hole_chunks_round_robin (100 : Int) ["a", "b"] (fun _ => some ["a"])
      (fun _ => ⟨[], [("a", 1)]⟩) [⟨"z", 10, 20⟩] 0 0
      ((tagsTriplesGo (100 : Int) ["a", "b"] (fun _ => some ["a"])
        (fun _ => ⟨[], [("a", 1)]⟩) [⟨"z", 10, 20⟩] 0 0).toOption.getD []) (by rfl)).2

theorem c8_selectBestShard_witness :
    lookupA [("", ["a", "b", "c"])]
        (getZoneForChunk ([] : List (TagRange Int)) ((0 : Int), (1 : Int)))
      = some ["a", "b", "c"]
    ∧ selectBestShard (fun s => if s = "a" then 2 else 1) ([] : List (TagRange Int))
        [("", ["a", "b", "c"])] ((0 : Int), (1 : Int)) = .ok "b"
    ∧ ("b" ∈ ["a", "b", "c"]
        ∧ (∀ s2 ∈ ["a", "b", "c"],
            (fun s => if s = "a" then 2 else 1) "b"
              ≤ (fun s => if s = "a" then 2 else 1) s2)
        ∧ ∀ j < firstIndexOf ["a", "b", "c"] "b",
            (fun s => if s = "a" then 2 else 1) "b"
              < (fun s => if s = "a" then 2 else 1) (["a", "b", "c"].getD j "")) := by
  refine ⟨by decide, rfl, ?_⟩
  exact (c8_selectBestShard (fun s => if s = "a" then 2 else 1)
    ([] : List (TagRange Int)) [("", ["a", "b", "c"])] ((0 : Int), (1 : Int))).2.2
    ["a", "b", "c"] "b" (by decide) rfl

theorem c9_generate_dedup_invariance_witness :
    (∀ x : Fin 4, x ∈ [2, 1, 2] ↔ x ∈ [1, 2])
    ∧ generateShardCollectionInitialChunks ⟨7, "p"⟩ (⟨0, 3⟩ : KeyPatternInfo (Fin 4))
        1 2 [2, 1, 2] ["a"] 1
      = generateShardCollectionInitialChunks ⟨7, "p"⟩ (⟨0, 3⟩ : KeyPatternInfo (Fin 4))
        1 2 [1, 2] ["a"] 1 := by
  refine ⟨by decide, ?_⟩
  exact (c9_generate_dedup_invariance ⟨7, "p"⟩ (⟨0, 3⟩ : KeyPatternInfo (Fin 4)) 1 2
    ["a"] 1 [2, 1, 2] [1, 2]).1 (by decide)

theorem c10_buildTagsToShardIdsMap_witness :
    buildTagsToShardIdsMap [("a", ["z"])] ([] : List (TagRange Int)) = .ok []
    ∧ (buildTagsToShardIdsMap ([] : List (ShardId × List String))
          [(⟨"z", 0, 1⟩ : TagRange Int)] = .error (errCode 50986)
        ↔ ([] : List (ShardId × List String)) = [])
    ∧ (lookupA ((buildTagsToShardIdsMap [("a", ["z"])]
        [(⟨"z", 0, 1⟩ : TagRange Int)]).toOption.getD []) "z").isSome := by
  refine ⟨?_, ?_, ?_⟩
  · exact (c10_buildTagsToShardIdsMap [("a", ["z"])] ([] : List (TagRange Int))).1 rfl
  · exact (c10_buildTagsToShardIdsMap ([] : List (ShardId × List String))
      [(⟨"z", 0, 1⟩ : TagRange Int)]).2.1 (by decide)
  · exact (c10_buildTagsToShardIdsMap [("a", ["z"])]
      [(⟨"z", 0, 1⟩ : TagRange Int)]).2.2 _ rfl (⟨"z", 0, 1⟩ : TagRange Int) (by decide)
